import Mathlib

/-!
Verification of the depth-sorting core of the BlenderModelToSVG exporter
(`model_to_svg_full.py`, with `model_to_svg_lite.py` agreeing on the
functions treated here).

Conventions of the shallow embedding:
* Python floats are modelled as exact rationals (`ℚ`).
* `mathutils.Vector` becomes `Vec3`; `ViewPolygon` is a record with the
  same fields as the Python class.
* `mathutils.geometry.distance_point_to_plane(v, p0, n)` returns
  `dot (v - p0) n / ‖n‖`.  The comparison `|distance| < eps` used by
  `vert_relative_pos` is expressed square-root-free as
  `dot² < eps² * ‖n‖²`, and `distance > 0` as `dot > 0`; for `n = 0` the
  Python float computation yields `nan` (every comparison false, so the
  function returns `-1`), which the square-root-free form reproduces.
* `Vector.normalized()` divides by `‖v‖`, an irrational number in
  general.  `ratSqrt` below is the exact square root on rationals that
  are squares of rationals and `0` elsewhere (mirroring mathutils, which
  maps the zero vector to the zero vector); every concrete input used in
  the theorems of this file has edges whose squared length is a perfect
  rational square, so on those inputs the embedding computes exactly the
  real-arithmetic value of the source.
-/

/-- Vector of three rational coordinates, standing for `mathutils.Vector`
    and for the `(x, y, depth)` vertex triples of the source. -/
structure Vec3 where
  x : ℚ
  y : ℚ
  z : ℚ
deriving DecidableEq, Repr

instance : Inhabited Vec3 := ⟨⟨0, 0, 0⟩⟩

/-- Dot product `a @ b` of `mathutils.Vector`. -/
def dot3 (a b : Vec3) : ℚ := a.x * b.x + a.y * b.y + a.z * b.z

/-- Componentwise vector difference. -/
def vsub (a b : Vec3) : Vec3 := ⟨a.x - b.x, a.y - b.y, a.z - b.z⟩

/-- Componentwise vector sum. -/
def vadd (a b : Vec3) : Vec3 := ⟨a.x + b.x, a.y + b.y, a.z + b.z⟩

/-- Scalar multiple of a vector. -/
def smul (s : ℚ) (a : Vec3) : Vec3 := ⟨s * a.x, s * a.y, s * a.z⟩

/-- Squared Euclidean norm of a vector. -/
def normSq (v : Vec3) : ℚ := v.x * v.x + v.y * v.y + v.z * v.z

/-- Bounding box `[xMin, xMax, yMin, yMax, zMin, zMax]` of a `ViewPolygon`
    (the Python list indices 0..5 become named fields). -/
structure BBox where
  xMin : ℚ
  xMax : ℚ
  yMin : ℚ
  yMax : ℚ
  zMin : ℚ
  zMax : ℚ
deriving DecidableEq, Repr

instance : Inhabited BBox := ⟨⟨0, 0, 0, 0, 0, 0⟩⟩

/-- The `ViewPolygon` class of the source: a vertex ring, a depth value,
    fill and stroke style data, a normal, the Newell `marked` flag and a
    bounding box.  In the source `normal` is computed once at
    construction by `mathutils.geometry.normal` from the vertex ring and
    `bounds` is `None` until computed; here both are plain fields, and
    every concrete polygon used below carries the normal the source
    constructor would compute for its ring. -/
structure ViewPolygon where
  verts : List Vec3
  depth : ℚ
  rgb_color : ℚ × ℚ × ℚ
  stroke_color : ℚ × ℚ × ℚ
  opacity : ℚ
  stroke_opacity : ℚ
  normal : Vec3
  marked : Bool
  bounds : BBox
deriving DecidableEq, Repr

instance : Inhabited ViewPolygon :=
  ⟨⟨[], 0, (0, 0, 0), (0, 0, 0), 0, 0, ⟨0, 0, 0⟩, false, default⟩⟩

/-- Constant `PLANE_DISTANCE_THRESHOLD` of the source. -/
def PLANE_DISTANCE_THRESHOLD : ℚ := 1 / 1000

/-- Constant `POLYGON_CULL_THRESHOLD` of the source. -/
def POLYGON_CULL_THRESHOLD : ℚ := 1 / 1000000

/-- Constant `POLYGON_CUT_PRECISION` of the source. -/
def POLYGON_CUT_PRECISION : ℚ := 1000

/-- Bounding box of a vertex list, as computed by
    `ViewPolygon.recalculate_bounds` (start from the first vertex and
    fold `min`/`max` over all vertices).  The source indexes `verts[0]`
    and would raise on an empty ring; here the empty ring yields the
    default box. -/
def boundsStep (b : BBox) (v : Vec3) : BBox :=
  ⟨min v.x b.xMin, max v.x b.xMax,
   min v.y b.yMin, max v.y b.yMax,
   min v.z b.zMin, max v.z b.zMax⟩

/-- Body of `recalculate_bounds` continued: the fold of `boundsStep`
    starting from the degenerate box of the first vertex. -/
def computeBounds (verts : List Vec3) : BBox :=
  verts.foldl boundsStep
    ⟨(verts.getD 0 default).x, (verts.getD 0 default).x,
     (verts.getD 0 default).y, (verts.getD 0 default).y,
     (verts.getD 0 default).z, (verts.getD 0 default).z⟩

/-- `ViewPolygon.recalculate_bounds` of the source, as a function. -/
def recalculate_bounds (p : ViewPolygon) : ViewPolygon :=
  { p with bounds := computeBounds p.verts }

/-- Anchor point of the plane defined by a plane polygon: its first
    vertex `plane_polygon.verts[0]`. -/
def planeAnchor (plane_polygon : ViewPolygon) : Vec3 :=
  plane_polygon.verts.getD 0 default

/-- Dot product of (vertex minus the plane polygon's first vertex) with
    the plane polygon's normal — the quantity whose sign every side test
    of the source is based on. -/
def dotOffset (plane_polygon : ViewPolygon) (vert : Vec3) : ℚ :=
  dot3 (vsub vert (planeAnchor plane_polygon)) plane_polygon.normal

/-- `DepthSorter.vert_relative_pos`: signed-distance classification of a
    vertex against the plane of a polygon, `0` within
    `PLANE_DISTANCE_THRESHOLD`, otherwise the sign of the distance.
    The source computes `distance = dotOffset / ‖normal‖` via
    `mathutils.geometry.distance_point_to_plane`; the comparisons are
    rendered square-root-free (see the file comment). -/
def vert_relative_pos (plane_polygon : ViewPolygon) (vert : Vec3) : Int :=
  if (dotOffset plane_polygon vert) ^ 2 <
      PLANE_DISTANCE_THRESHOLD ^ 2 * normSq plane_polygon.normal then 0
  else if 0 < dotOffset plane_polygon vert then 1
  else -1

/-- `DepthSorter.vert_relative_pos_bool`: the zero-tolerance side test,
    true exactly when the dot product of (vertex minus plane anchor)
    with the plane normal is `≥ 0`. -/
def vert_relative_pos_bool (plane_polygon : ViewPolygon) (vert : Vec3) : Bool :=
  0 ≤ dotOffset plane_polygon vert

/-- `DepthSorter.relative_pos`: classification of a whole polygon
    against a plane, `1` (front) when no vertex classifies `-1`, `-1`
    (behind) when additionally failing that no vertex classifies `1`,
    and `0` (straddling) otherwise. -/
def relative_pos (plane_polygon polygon_p : ViewPolygon) : Int :=
  if polygon_p.verts.all (fun v => vert_relative_pos plane_polygon v != -1) then 1
  else if polygon_p.verts.all (fun v => vert_relative_pos plane_polygon v != 1) then -1
  else 0

/-- Integer square root by bounded bisection (maintains
    `lo * lo ≤ n < hi * hi`); the fuel only bounds the number of
    halvings, the search exits through the `hi ≤ lo + 1` test. -/
def isqrtGo : Nat → Nat → Nat → Nat → Nat
  | 0, _, lo, _ => lo
  | fuel + 1, n, lo, hi =>
    if hi ≤ lo + 1 then lo
    else
      let mid := (lo + hi) / 2
      if mid * mid ≤ n then isqrtGo fuel n mid hi else isqrtGo fuel n lo mid

/-- Integer square root (floor) for the sizes arising here. -/
def isqrt (n : Nat) : Nat :=
  if n = 0 then 0 else isqrtGo 128 n 1 (n + 1)

/-- Exact rational square root: the nonnegative rational root when the
    argument is the square of a rational, `0` otherwise.  It stands for
    the real square root in `Vector.normalized`; all concrete inputs in
    this file only take it at perfect rational squares, where it agrees
    with the real value (see the file comment). -/
def ratSqrt (q : ℚ) : ℚ :=
  if q ≤ 0 then 0
  else
    let a := isqrt q.num.toNat
    let b := isqrt q.den
    if a * a = q.num.toNat ∧ b * b = q.den then (a : ℚ) / (b : ℚ) else 0

/-- `Vector.normalized()`: the vector divided by its length, the zero
    vector when the length is zero (division by `0` is `0` in `ℚ`). -/
def normalized (v : Vec3) : Vec3 :=
  let s := ratSqrt (normSq v)
  ⟨v.x / s, v.y / s, v.z / s⟩

/-- `mathutils.geometry.intersect_line_plane(p0, p1, plane_co,
    plane_no)`: intersection of the line through `p0` and `p1` with the
    plane, `none` when the line direction is perpendicular to the plane
    normal (the parallel case). -/
def intersect_line_plane (p0 p1 plane_co plane_no : Vec3) : Option Vec3 :=
  let u := vsub p1 p0
  let d := dot3 u plane_no
  if d = 0 then none
  else some (vadd p0 (smul (dot3 (vsub plane_co p0) plane_no / d) u))

/-- Sum of absolute coordinate differences of consecutive vertices
    (indices `0..len-2` against their successors), the quantity
    `difference_sum` of `DepthSorter.is_fragment`. -/
def deltaSum : List Vec3 → ℚ
  | a :: b :: t =>
    |a.x - b.x| + |a.y - b.y| + |a.z - b.z| + deltaSum (b :: t)
  | _ => 0

/-- `DepthSorter.is_fragment`: a polygon is a cullable fragment when its
    ring has fewer than 3 vertices or the summed absolute coordinate
    deltas fall below `POLYGON_CULL_THRESHOLD`. -/
def is_fragment (p : ViewPolygon) : Bool :=
  if p.verts.length < 3 then true
  else if |deltaSum p.verts| < POLYGON_CULL_THRESHOLD then true
  else false

/-- Body of the vertex loop of `DepthSorter.cut_conflicting` for one
    vertex `vert` whose cyclic predecessor is `prev` (the variable
    `next_vert = verts[(i - 1) % len(verts)]` of the source), given the
    running flag `currently_in_front`.  Returns the vertices appended to
    the front ring, those appended to the back ring, and the updated
    flag.  In the crossing branches the intersection point is nudged by
    `normalized(prev - vert) / POLYGON_CUT_PRECISION` in opposite
    directions for the two rings; when `intersect_line_plane` reports
    the parallel case the current vertex is appended to both rings. -/
def cutEdge (plane_polygon : ViewPolygon) (prev vert : Vec3) (currently_in_front : Bool) :
    List Vec3 × List Vec3 × Bool :=
  if vert_relative_pos_bool plane_polygon vert then
    if currently_in_front then ([vert], [], true)
    else
      let intersect_dir := smul (1 / POLYGON_CUT_PRECISION) (normalized (vsub prev vert))
      match intersect_line_plane vert prev (planeAnchor plane_polygon) plane_polygon.normal with
      | some intersect_vert =>
        ([vsub intersect_vert intersect_dir, vert], [vadd intersect_vert intersect_dir], true)
      | none => ([vert], [vert], true)
  else
    if currently_in_front then
      let intersect_dir := smul (1 / POLYGON_CUT_PRECISION) (normalized (vsub prev vert))
      match intersect_line_plane vert prev (planeAnchor plane_polygon) plane_polygon.normal with
      | some intersect_vert =>
        ([vadd intersect_vert intersect_dir], [vsub intersect_vert intersect_dir, vert], false)
      | none => ([vert], [vert], false)
    else ([], [vert], false)

/-- Vertex loop of `DepthSorter.cut_conflicting` over the list of
    (cyclic predecessor, vertex) pairs, threading the
    `currently_in_front` flag and concatenating the per-vertex ring
    additions in loop order. -/
def cutLoop (plane_polygon : ViewPolygon) :
    List (Vec3 × Vec3) → Bool → List Vec3 × List Vec3
  | [], _ => ([], [])
  | (prev, vert) :: rest, flag =>
    let step := cutEdge plane_polygon prev vert flag
    let tail := cutLoop plane_polygon rest step.2.2
    (step.1 ++ tail.1, step.2.1 ++ tail.2)

/-- Pairs each vertex of a ring with its cyclic predecessor
    (`verts[(i - 1) % len(verts)]`). -/
def cyclicPairs (verts : List Vec3) : List (Vec3 × Vec3) :=
  List.zip (verts.getLastD default :: verts.dropLast) verts

/-- Front and back vertex rings built by `DepthSorter.cut_conflicting`
    before culling; the initial flag is the side test of the last
    vertex, exactly as the source primes `currently_in_front` with
    `verts[-1]`. -/
def cutRings (plane_polygon polygon_p : ViewPolygon) : List Vec3 × List Vec3 :=
  cutLoop plane_polygon (cyclicPairs polygon_p.verts)
    (vert_relative_pos_bool plane_polygon (polygon_p.verts.getLastD default))

/-- `DepthSorter.cut_conflicting`: cuts `polygon_p` by the plane of
    `plane_polygon` into a front and a back fragment, each carrying all
    non-vertex fields of `polygon_p` (the source reuses `polygon_p` as
    the front fragment and a `deepcopy` as the back one), replaced by
    `none` when `is_fragment` culls it, with bounds recalculated
    otherwise. -/
def cut_conflicting (plane_polygon polygon_p : ViewPolygon) :
    Option ViewPolygon × Option ViewPolygon :=
  let rings := cutRings plane_polygon polygon_p
  let front := { polygon_p with verts := rings.1 }
  let back := { polygon_p with verts := rings.2 }
  (if is_fragment front then none else some (recalculate_bounds front),
   if is_fragment back then none else some (recalculate_bounds back))

/-- Projection of a polygon's vertices to screen-space `(x, y)` pairs,
    as built for the `ShapelyPolygon` overlap tests. -/
def projVerts (p : ViewPolygon) : List (ℚ × ℚ) :=
  p.verts.map (fun v => (v.x, v.y))

/-- `DepthSorter.in_conflict`: the conflict test of the octree resolver,
    a cascade of early-false exits mirroring the source.  The 2D
    projection-overlap test `ShapelyPolygon(p).overlaps(ShapelyPolygon(q))`
    of the external shapely library is abstracted as the parameter
    `projOverlap` applied to the screen-space projections. -/
def in_conflict (projOverlap : List (ℚ × ℚ) → List (ℚ × ℚ) → Bool)
    (polygon_p polygon_q : ViewPolygon) : Bool :=
  let pb := polygon_p.bounds
  let qb := polygon_q.bounds
  if (pb.zMin > qb.zMax ∧ pb.zMax > qb.zMax) ∨ (pb.zMin < qb.zMin ∧ pb.zMax < qb.zMin) then
    false
  else if (pb.yMin > qb.yMax ∧ pb.yMax > qb.yMax) ∨ (pb.yMin < qb.yMin ∧ pb.yMax < qb.yMin) then
    false
  else if (pb.xMin > qb.xMax ∧ pb.xMax > qb.xMax) ∨ (pb.xMin < qb.xMin ∧ pb.xMax < qb.xMin) then
    false
  else if relative_pos polygon_q polygon_p ≠ 0 then false
  else if relative_pos polygon_p polygon_q ≠ 0 then false
  else if ¬ projOverlap (projVerts polygon_p) (projVerts polygon_q) then false
  else true

/-- The `BSPNode` class.  A Python child reference is either `None` or a
    node; the `nil` constructor stands for `None`, so a node carries its
    two child slots, the `is_leaf` flag and the polygon list. -/
inductive BSPNode where
  | nil : BSPNode
  | node (front_node back_node : BSPNode) (is_leaf : Bool)
      (polygon_list : List ViewPolygon) : BSPNode
deriving Repr

/-- Index popped by `view_polygons.pop(round(len(view_polygons) / 2))`:
    Python `round` uses banker's rounding, so a half is rounded to the
    nearest even integer. -/
def popIdx (len : Nat) : Nat :=
  if len % 2 = 0 then len / 2
  else if (len / 2) % 2 = 0 then len / 2 else len / 2 + 1

/-- Partition loop shared by `depth_sort_bsp` (first partition) and
    `bsp_partition`: the remaining polygons are visited by a downward
    index loop, i.e. in reverse list order, and each is appended to the
    front list (classification `1`), the back list (`-1`), or cut in two
    with surviving fragments appended to front and back
    (classification `0`). -/
def routeStep (part_plane : ViewPolygon)
    (acc : List ViewPolygon × List ViewPolygon) (p : ViewPolygon) :
    List ViewPolygon × List ViewPolygon :=
  if relative_pos part_plane p = 1 then (acc.1 ++ [p], acc.2)
  else if relative_pos part_plane p = 0 then
    (acc.1 ++ (cut_conflicting part_plane p).1.toList,
     acc.2 ++ (cut_conflicting part_plane p).2.toList)
  else (acc.1, acc.2 ++ [p])

/-- Partition loop continued: the polygons are folded in reverse order
    through `routeStep`. -/
def routeAll (part_plane : ViewPolygon) (polys : List ViewPolygon) :
    List ViewPolygon × List ViewPolygon :=
  polys.reverse.foldl (routeStep part_plane) ([], [])

/-- Child node creation on demand: a child slot stays `None` when no
    polygon was routed to it, otherwise it is a fresh leaf holding the
    routed polygons. -/
def mkChild (polys : List ViewPolygon) : BSPNode :=
  if polys.isEmpty then .nil else .node .nil .nil true polys

/-- One node subdivision step: a leaf holding more than one polygon pops
    the middle polygon as its partitioning plane, routes the rest into
    on-demand children, clears `is_leaf` and keeps `[plane]` as its
    polygon list; a leaf with at most one polygon is left unchanged.
    This is the per-node body of `bsp_partition` and also the root
    partition of `depth_sort_bsp` (whose early returns for 0 or 1 input
    polygons coincide with the unchanged-leaf case). -/
def partitionLeaf (polys : List ViewPolygon) : BSPNode :=
  if polys.length ≤ 1 then .node .nil .nil true polys
  else
    let plane := polys.getD (popIdx polys.length) default
    let rest := polys.eraseIdx (popIdx polys.length)
    let routed := routeAll plane rest
    .node (mkChild routed.1) (mkChild routed.2) false [plane]

/-- One call of `bsp_partition` on the whole tree: every current leaf is
    subdivided (if it holds more than one polygon); the source keeps the
    list of current leaves and rewrites it in place, which is the same
    one-level-everywhere transformation. -/
def partitionStep : BSPNode → BSPNode
  | .nil => .nil
  | .node f b is_leaf polys =>
    if is_leaf then partitionLeaf polys
    else .node (partitionStep f) (partitionStep b) is_leaf polys

/-- Return value of `bsp_partition`: the tree changed exactly when some
    leaf held more than one polygon. -/
def treeChanged : BSPNode → Bool
  | .nil => false
  | .node f b is_leaf polys =>
    if is_leaf then decide (polys.length > 1)
    else treeChanged f || treeChanged b

/-- Outcomes of the BSP build: the `RecursionError("Partition limit
    reached")` of the source, and a fuel marker `outOfFuel` that models
    a loop running beyond every bound (proved unreachable below). -/
inductive BuildErr where
  | limitReached : BuildErr
  | outOfFuel : BuildErr
deriving DecidableEq, Repr

/-- The `while DepthSorter.bsp_partition(leaf_nodes): j += 1; if j >=
    cycle_limit: raise` loop of `depth_sort_bsp`.  Each iteration first
    performs the partition pass, then increments the counter and raises
    when it reaches the limit.  The structural fuel makes the recursion
    total; `depth_sort_bsp` supplies `cycle_limit + 1`, which is proved
    sufficient (`outOfFuel` never escapes). -/
def bspLoopFuel : Nat → Nat → Nat → BSPNode → Except BuildErr BSPNode
  | 0, _, _, _ => .error .outOfFuel
  | fuel + 1, j, cycle_limit, tree =>
    if treeChanged tree then
      let tree2 := partitionStep tree
      if j + 1 ≥ cycle_limit then .error .limitReached
      else bspLoopFuel fuel (j + 1) cycle_limit tree2
    else .ok tree

/-- `DepthSorter.depth_sort_bsp`: build the BSP tree from the input
    polygons.  The explicit root code of the source (pop middle, route
    the rest, create children) is the `partitionLeaf` step applied to
    the input list, including its early returns for 0 or 1 polygons;
    the partition loop then runs with the cycle counter starting at 0. -/
def depth_sort_bsp (view_polygons : List ViewPolygon) (cycle_limit : Nat) :
    Except BuildErr BSPNode :=
  bspLoopFuel (cycle_limit + 1) 0 cycle_limit (partitionLeaf view_polygons)

/-- `DepthSorter.bsp_tree_to_view_polygons`: the in-order traversal.
    The source appends into a result list passed by reference; here the
    accumulated list is threaded and returned.  At a leaf the polygon
    `polygon_list[0]` is appended (`take 1` — identical for the
    nonempty leaves the builder produces); at an internal node the
    camera side of the node plane decides whether the back or the front
    subtree is emitted first. -/
def bsp_tree_to_view_polygons :
    BSPNode → List ViewPolygon → Vec3 → List ViewPolygon
  | .nil, acc, _ => acc
  | .node front back is_leaf polys, acc, camera_pos =>
    if is_leaf then acc ++ polys.take 1
    else
      let self := polys.getD 0 default
      let plane_point := self.verts.getD 0 default
      if dot3 (vsub plane_point camera_pos) self.normal < 0 then
        let acc1 := bsp_tree_to_view_polygons back acc camera_pos
        let acc2 := acc1 ++ polys.take 1
        bsp_tree_to_view_polygons front acc2 camera_pos
      else
        let acc1 := bsp_tree_to_view_polygons front acc camera_pos
        let acc2 := acc1 ++ polys.take 1
        bsp_tree_to_view_polygons back acc2 camera_pos

/-- Emission order claimed by the specification, written as plain list
    concatenation: a leaf emits its single polygon; an internal node
    whose plane faces the viewpoint (negative dot product) emits back
    subtree, own polygon, front subtree, and otherwise front subtree,
    own polygon, back subtree. -/
def paintersOrderSpec : BSPNode → Vec3 → List ViewPolygon
  | .nil, _ => []
  | .node front back is_leaf polys, camera_pos =>
    if is_leaf then polys.take 1
    else
      let self := polys.getD 0 default
      let plane_point := self.verts.getD 0 default
      if dot3 (vsub plane_point camera_pos) self.normal < 0 then
        paintersOrderSpec back camera_pos ++ polys.take 1 ++
          paintersOrderSpec front camera_pos
      else
        paintersOrderSpec front camera_pos ++ polys.take 1 ++
          paintersOrderSpec back camera_pos

/-- Leaf polygons of a tree together with their ancestor chains: each
    ancestor is recorded as its splitting polygon paired with `true`
    when the path continues into the front child and `false` for the
    back child. -/
def leavesWithPaths :
    BSPNode → List (ViewPolygon × Bool) → List (ViewPolygon × List (ViewPolygon × Bool))
  | .nil, _ => []
  | .node front back is_leaf polys, path =>
    if is_leaf then polys.map (fun p => (p, path))
    else
      let plane := polys.getD 0 default
      leavesWithPaths front (path ++ [(plane, true)]) ++
        leavesWithPaths back (path ++ [(plane, false)])

/-- Leaf polygons with ancestor chains for a build result (`[]` for a
    build that raised). -/
def buildLeaves (r : Except BuildErr BSPNode) :
    List (ViewPolygon × List (ViewPolygon × Bool)) :=
  match r with
  | .ok t => leavesWithPaths t []
  | .error _ => []

/-- Statement of claim C2 for one input list and cycle limit: each leaf
    polygon of a completed build classifies non-straddling against every
    ancestor plane, front for front-path ancestors and behind for
    back-path ancestors. -/
def C2Statement (view_polygons : List ViewPolygon) (cycle_limit : Nat) : Prop :=
  ∀ e ∈ buildLeaves (depth_sort_bsp view_polygons cycle_limit),
    ∀ a ∈ e.2,
      relative_pos a.1 e.1 ≠ 0 ∧
      (a.2 = true → relative_pos a.1 e.1 = 1) ∧
      (a.2 = false → relative_pos a.1 e.1 = -1)

/-- Style metadata of a polygon: fill color, stroke color, opacity and
    stroke opacity. -/
def styleOf (p : ViewPolygon) : (ℚ × ℚ × ℚ) × (ℚ × ℚ × ℚ) × ℚ × ℚ :=
  (p.rgb_color, p.stroke_color, p.opacity, p.stroke_opacity)

/-- Unfolding of the fragment-culling test. -/
theorem is_fragment_iff (p : ViewPolygon) :
    is_fragment p = true ↔
      p.verts.length < 3 ∨ |deltaSum p.verts| < POLYGON_CULL_THRESHOLD := by
  unfold is_fragment
  by_cases h1 : p.verts.length < 3
  · simp [h1]
  · by_cases h2 : |deltaSum p.verts| < POLYGON_CULL_THRESHOLD
    · simp [h1, h2]
    · simp [h1, h2]

/-- Claim C1: the BSP traversal `bsp_tree_to_view_polygons` extends the
    accumulated output list with the polygons of the subtree in exactly
    the order stated by the specification: a leaf contributes its single
    polygon, and an internal node whose plane polygon satisfies
    `dot (first vertex - viewpoint) normal < 0` (viewpoint in front)
    contributes the whole back subtree, then its own polygon, then the
    whole front subtree, otherwise front subtree, own polygon, back
    subtree. -/
theorem bsp_traversal_emits_painters_order (t : BSPNode)
    (acc : List ViewPolygon) (camera_pos : Vec3) :
    bsp_tree_to_view_polygons t acc camera_pos =
      acc ++ paintersOrderSpec t camera_pos := by
  induction t generalizing acc with
  | nil => simp [bsp_tree_to_view_polygons, paintersOrderSpec]
  | node front back is_leaf polys ihf ihb =>
    simp only [bsp_tree_to_view_polygons, paintersOrderSpec]
    split_ifs with h1 h2
    · simp
    · simp [ihf, ihb, List.append_assoc]
    · simp [ihf, ihb, List.append_assoc]

/-- Claim C4: `cut_conflicting` returns `none` in place of a fragment
    exactly when that fragment's vertex ring has fewer than 3 vertices
    or its summed absolute coordinate deltas fall below
    `POLYGON_CULL_THRESHOLD = 1e-6`, and every returned fragment carries
    the original polygon's style metadata (fill color, stroke color,
    opacity, stroke opacity) unchanged. -/
theorem cut_conflicting_cull_and_style (plane_polygon polygon_p : ViewPolygon) :
    ((cut_conflicting plane_polygon polygon_p).1 = none ↔
      ((cutRings plane_polygon polygon_p).1.length < 3 ∨
        |deltaSum (cutRings plane_polygon polygon_p).1| < 1 / 1000000)) ∧
    ((cut_conflicting plane_polygon polygon_p).2 = none ↔
      ((cutRings plane_polygon polygon_p).2.length < 3 ∨
        |deltaSum (cutRings plane_polygon polygon_p).2| < 1 / 1000000)) ∧
    (cut_conflicting plane_polygon polygon_p).1.elim True
      (fun f => styleOf f = styleOf polygon_p) ∧
    (cut_conflicting plane_polygon polygon_p).2.elim True
      (fun f => styleOf f = styleOf polygon_p) := by
  have hc : POLYGON_CULL_THRESHOLD = 1 / 1000000 := rfl
  unfold cut_conflicting
  dsimp only
  refine ⟨?_, ?_, ?_, ?_⟩
  · split_ifs with h
    · rw [is_fragment_iff] at h
      simpa [hc] using h
    · rw [is_fragment_iff, not_or] at h
      push_neg at h
      simp only [hc] at h
      simp only [reduceCtorEq, false_iff, not_or, not_lt]
      exact ⟨h.1, h.2⟩
  · split_ifs with h
    · rw [is_fragment_iff] at h
      simpa [hc] using h
    · rw [is_fragment_iff, not_or] at h
      push_neg at h
      simp only [hc] at h
      simp only [reduceCtorEq, false_iff, not_or, not_lt]
      exact ⟨h.1, h.2⟩
  · split_ifs <;> simp [styleOf, recalculate_bounds]
  · split_ifs <;> simp [styleOf, recalculate_bounds]

/-- Auxiliary real-number fact: comparing the absolute distance
    `|D / sqrt s|` with a positive threshold is the same as the
    square-root-free comparison used by the embedding. -/
theorem abs_div_sqrt_lt_iff (D s eps : ℝ) (hs : 0 < s) (heps : 0 < eps) :
    |D / Real.sqrt s| < eps ↔ D ^ 2 < eps ^ 2 * s := by
  constructor
  · intro h
    have h2 : (D / Real.sqrt s) ^ 2 < eps ^ 2 := by
      rw [← sq_abs]
      exact pow_lt_pow_left₀ h (abs_nonneg _) (by norm_num)
    rw [div_pow, Real.sq_sqrt hs.le, div_lt_iff₀ hs] at h2
    linarith
  · intro h
    have h2 : (D / Real.sqrt s) ^ 2 < eps ^ 2 := by
      rw [div_pow, Real.sq_sqrt hs.le, div_lt_iff₀ hs]
      linarith
    exact abs_lt_of_sq_lt_sq h2 heps.le

/-- Squared norms are nonnegative. -/
theorem normSq_nonneg (v : Vec3) : 0 ≤ normSq v := by
  unfold normSq
  nlinarith [mul_self_nonneg v.x, mul_self_nonneg v.y, mul_self_nonneg v.z]

/-- Unfolding fact: the vertex classifier yields 0 exactly under its
    threshold test. -/
theorem vert_relative_pos_eq_zero_iff (q : ViewPolygon) (v : Vec3) :
    vert_relative_pos q v = 0 ↔
      (dotOffset q v) ^ 2 < PLANE_DISTANCE_THRESHOLD ^ 2 * normSq q.normal := by
  unfold vert_relative_pos
  split_ifs with h1 h2 <;> simp [h1]

/-- Claim C3: a vertex classifies `On` (0) exactly when the absolute
    signed distance to the plane through the plane polygon's first
    vertex with its normal is below `0.001`, and otherwise by the sign
    of that distance; `relative_pos` returns front (1) when all
    vertices are non-behind, behind (-1) when all vertices are
    non-front and some is behind, and a polygon whose vertices are all
    `On` classifies front. -/
theorem relative_pos_spec (q p : ViewPolygon) (hn : normSq q.normal ≠ 0) :
    (∀ v : Vec3,
      (vert_relative_pos q v = 0 ↔
        |(dotOffset q v : ℝ) / Real.sqrt ((normSq q.normal : ℚ) : ℝ)| < 1 / 1000) ∧
      (vert_relative_pos q v ≠ 0 →
        ((vert_relative_pos q v = 1 ↔
          0 < (dotOffset q v : ℝ) / Real.sqrt ((normSq q.normal : ℚ) : ℝ)) ∧
        (vert_relative_pos q v = -1 ↔
          (dotOffset q v : ℝ) / Real.sqrt ((normSq q.normal : ℚ) : ℝ) < 0)))) ∧
    (relative_pos q p = 1 ↔ ∀ v ∈ p.verts, vert_relative_pos q v ≠ -1) ∧
    (relative_pos q p = -1 ↔
      (¬ ∀ v ∈ p.verts, vert_relative_pos q v ≠ -1) ∧
      (∀ v ∈ p.verts, vert_relative_pos q v ≠ 1)) ∧
    ((∀ v ∈ p.verts, vert_relative_pos q v = 0) → relative_pos q p = 1) := by
  have hq0 : (0 : ℚ) < normSq q.normal :=
    lt_of_le_of_ne (normSq_nonneg _) (Ne.symm hn)
  have hspos : (0 : ℝ) < ((normSq q.normal : ℚ) : ℝ) := by exact_mod_cast hq0
  have hsqrtpos : (0 : ℝ) < Real.sqrt ((normSq q.normal : ℚ) : ℝ) :=
    Real.sqrt_pos.mpr hspos
  refine ⟨?_, ?_, ?_, ?_⟩
  · intro v
    have hc1 : (((1 : ℚ) / 1000 : ℚ) : ℝ) = 1 / 1000 := by norm_num
    have hcast :
        (dotOffset q v) ^ 2 < PLANE_DISTANCE_THRESHOLD ^ 2 * normSq q.normal ↔
          ((dotOffset q v : ℝ)) ^ 2 < (1 / 1000) ^ 2 * ((normSq q.normal : ℚ) : ℝ) := by
      rw [show PLANE_DISTANCE_THRESHOLD = 1 / 1000 from rfl, ← hc1]
      constructor
      · intro h
        exact_mod_cast h
      · intro h
        exact_mod_cast h
    constructor
    · rw [abs_div_sqrt_lt_iff _ _ _ hspos (by norm_num), vert_relative_pos_eq_zero_iff,
        hcast]
    · intro hne
      have hnc : ¬ (dotOffset q v) ^ 2 < PLANE_DISTANCE_THRESHOLD ^ 2 * normSq q.normal :=
        fun hcon => hne ((vert_relative_pos_eq_zero_iff q v).mpr hcon)
      have hd0 : dotOffset q v ≠ 0 := by
        intro h0
        apply hnc
        rw [h0]
        have hth : (0 : ℚ) < PLANE_DISTANCE_THRESHOLD ^ 2 := by
          norm_num [PLANE_DISTANCE_THRESHOLD]
        nlinarith
      have hpos_iff : 0 < (dotOffset q v : ℝ) / Real.sqrt ((normSq q.normal : ℚ) : ℝ) ↔
          0 < dotOffset q v := by
        rw [div_pos_iff_of_pos_right hsqrtpos]
        exact ⟨fun h => by exact_mod_cast h, fun h => by exact_mod_cast h⟩
      have hneg_iff : (dotOffset q v : ℝ) / Real.sqrt ((normSq q.normal : ℚ) : ℝ) < 0 ↔
          dotOffset q v < 0 := by
        rw [div_neg_iff]
        constructor
        · rintro (⟨_, hb⟩ | ⟨ha, _⟩)
          · linarith
          · exact_mod_cast ha
        · intro h
          exact Or.inr ⟨by exact_mod_cast h, hsqrtpos⟩
      constructor
      · rw [hpos_iff]
        unfold vert_relative_pos
        simp only [hnc, if_false]
        split_ifs with h3 <;> simp [h3]
      · rw [hneg_iff]
        unfold vert_relative_pos
        simp only [hnc, if_false]
        split_ifs with h3
        · simp
          linarith
        · simp
          push_neg at h3
          exact lt_of_le_of_ne h3 hd0
  · unfold relative_pos
    split_ifs with h1 h2 <;> simp_all [List.all_eq_true]
  · unfold relative_pos
    split_ifs with h1 h2 <;> simp_all [List.all_eq_true]
  · intro hall
    unfold relative_pos
    have h1 : p.verts.all (fun v => vert_relative_pos q v != -1) = true := by
      rw [List.all_eq_true]
      intro v hv
      simp [hall v hv]
    simp [h1]

/-- Concrete plane polygon for witnesses: a large square in the plane
    `z = 0` with unit normal `(0, 0, 1)` (the normal
    `mathutils.geometry.normal` computes for this ring). -/
def planeZ0 : ViewPolygon :=
  { verts := [⟨-10, -10, 0⟩, ⟨10, -10, 0⟩, ⟨10, 10, 0⟩, ⟨-10, 10, 0⟩],
    depth := 0, rgb_color := (0, 0, 0), stroke_color := (0, 0, 0),
    opacity := 1, stroke_opacity := 1, normal := ⟨0, 0, 1⟩, marked := false,
    bounds := computeBounds [⟨-10, -10, 0⟩, ⟨10, -10, 0⟩, ⟨10, 10, 0⟩, ⟨-10, 10, 0⟩] }

/-- Witness for claim C3: the hypothesis (nonzero plane normal) is
    satisfied by the concrete plane polygon `planeZ0`. -/
theorem relative_pos_spec_witness :
    normSq planeZ0.normal ≠ 0 ∧
    ((∀ v ∈ planeZ0.verts, vert_relative_pos planeZ0 v = 0) →
      relative_pos planeZ0 planeZ0 = 1) := by
  have hn : normSq planeZ0.normal ≠ 0 := by
    norm_num [planeZ0, normSq]
  exact ⟨hn, (relative_pos_spec planeZ0 planeZ0 hn).2.2.2⟩

/-- Helper: in every branch of the per-vertex cut step, the current
    vertex is appended to the front additions when its side test is
    true and to the back additions when it is false. -/
theorem cutEdge_routes_vert (q : ViewPolygon) (prev v : Vec3) (flag : Bool) :
    (vert_relative_pos_bool q v = true → v ∈ (cutEdge q prev v flag).1) ∧
    (vert_relative_pos_bool q v = false → v ∈ (cutEdge q prev v flag).2.1) := by
  unfold cutEdge
  constructor
  · intro hb
    rw [hb]
    by_cases hf : flag
    · simp [hf]
    · simp only [hf, if_false, if_true]
      cases intersect_line_plane v prev (planeAnchor q) q.normal <;> simp
  · intro hb
    rw [hb]
    by_cases hf : flag
    · simp only [hf, if_true, Bool.false_eq_true, if_false]
      cases intersect_line_plane v prev (planeAnchor q) q.normal <;> simp
    · simp [hf]

/-- Helper: a vertex appearing in the pair list lands in the front ring
    or the back ring of the cut loop according to its side test. -/
theorem cutLoop_routes_vert (q : ViewPolygon) (pairs : List (Vec3 × Vec3))
    (flag : Bool) (pr v : Vec3) (hmem : (pr, v) ∈ pairs) :
    (vert_relative_pos_bool q v = true → v ∈ (cutLoop q pairs flag).1) ∧
    (vert_relative_pos_bool q v = false → v ∈ (cutLoop q pairs flag).2) := by
  induction pairs generalizing flag with
  | nil => cases hmem
  | cons hd tl ih =>
    rcases List.mem_cons.mp hmem with heq | htl
    · subst heq
      constructor
      · intro hb
        simp only [cutLoop, List.mem_append]
        exact Or.inl ((cutEdge_routes_vert q pr v flag).1 hb)
      · intro hb
        simp only [cutLoop, List.mem_append]
        exact Or.inl ((cutEdge_routes_vert q pr v flag).2 hb)
    · rcases hd with ⟨a, b⟩
      constructor
      · intro hb
        simp only [cutLoop, List.mem_append]
        exact Or.inr ((ih (cutEdge q a b flag).2.2 htl).1 hb)
      · intro hb
        simp only [cutLoop, List.mem_append]
        exact Or.inr ((ih (cutEdge q a b flag).2.2 htl).2 hb)

/-- Helper: every vertex of a ring is the second component of some pair
    of its cyclic predecessor pairing. -/
theorem mem_cyclicPairs_of_mem (vs : List Vec3) (v : Vec3) (hv : v ∈ vs) :
    ∃ pr, (pr, v) ∈ cyclicPairs vs := by
  have hlen : vs.length ≤ (vs.getLastD default :: vs.dropLast).length := by
    cases vs with
    | nil => simp
    | cons a t => simp
  have hmap : (cyclicPairs vs).map Prod.snd = vs := by
    unfold cyclicPairs
    exact List.map_snd_zip _ _ hlen
  rw [← hmap] at hv
  rcases List.mem_map.mp hv with ⟨⟨a, b⟩, hab, hsnd⟩
  exact ⟨a, by simpa [← hsnd] using hab⟩

/-- Concrete unit square at depth `z`, with the unit normal its
    counter-clockwise ring yields. -/
def unitSquareAt (z : ℚ) : ViewPolygon :=
  { verts := [⟨0, 0, z⟩, ⟨1, 0, z⟩, ⟨1, 1, z⟩, ⟨0, 1, z⟩],
    depth := z, rgb_color := (0, 0, 0), stroke_color := (0, 0, 0),
    opacity := 1, stroke_opacity := 1, normal := ⟨0, 0, 1⟩, marked := false,
    bounds := computeBounds [⟨0, 0, z⟩, ⟨1, 0, z⟩, ⟨1, 1, z⟩, ⟨0, 1, z⟩] }

/-- Claim C10: the side test used by `cut_conflicting` to route each
    vertex is the zero-tolerance sign test `vert_relative_pos_bool`,
    true exactly when the dot product of (vertex minus the plane
    polygon's first vertex) with the plane normal is nonnegative; a
    vertex with dot product exactly zero is routed to the front ring;
    every original vertex lands in the ring its boolean test selects;
    and the boolean test disagrees with the threshold-based classifier
    `vert_relative_pos` inside the `On` band, witnessed concretely by a
    vertex at distance `-1/2000` that classifies `On` yet routes back. -/
theorem cut_side_test_spec :
    (∀ (q : ViewPolygon) (v : Vec3),
      vert_relative_pos_bool q v = decide (0 ≤ dotOffset q v)) ∧
    (∀ (q : ViewPolygon) (v : Vec3),
      dotOffset q v = 0 → vert_relative_pos_bool q v = true) ∧
    (∀ (q p : ViewPolygon) (v : Vec3), v ∈ p.verts →
      (vert_relative_pos_bool q v = true → v ∈ (cutRings q p).1) ∧
      (vert_relative_pos_bool q v = false → v ∈ (cutRings q p).2)) ∧
    (vert_relative_pos planeZ0 ⟨0, 0, -1/2000⟩ = 0 ∧
      vert_relative_pos_bool planeZ0 ⟨0, 0, -1/2000⟩ = false) := by
  refine ⟨fun q v => rfl, ?_, ?_, ?_, ?_⟩
  · intro q v h0
    unfold vert_relative_pos_bool
    rw [h0]
    norm_num
  · intro q p v hv
    rcases mem_cyclicPairs_of_mem p.verts v hv with ⟨pr, hpr⟩
    unfold cutRings
    exact cutLoop_routes_vert q (cyclicPairs p.verts) _ pr v hpr
  · norm_num [vert_relative_pos, dotOffset, planeZ0, planeAnchor, dot3, vsub, normSq,
      PLANE_DISTANCE_THRESHOLD]
  · norm_num [vert_relative_pos_bool, dotOffset, planeZ0, planeAnchor, dot3, vsub]

/-- Witness for claim C10: at the concrete plane `planeZ0`, polygon
    `unitSquareAt 5` and its first vertex, the membership and boolean
    hypotheses are all discharged and the vertex lands in the front
    ring. -/
theorem cut_side_test_spec_witness :
    (⟨0, 0, 5⟩ : Vec3) ∈ (unitSquareAt 5).verts ∧
    vert_relative_pos_bool planeZ0 ⟨0, 0, 5⟩ = true ∧
    (⟨0, 0, 5⟩ : Vec3) ∈ (cutRings planeZ0 (unitSquareAt 5)).1 := by
  have hmem : (⟨0, 0, 5⟩ : Vec3) ∈ (unitSquareAt 5).verts := by
    simp [unitSquareAt]
  have hb : vert_relative_pos_bool planeZ0 ⟨0, 0, 5⟩ = true := by
    norm_num [vert_relative_pos_bool, dotOffset, planeZ0, planeAnchor, dot3, vsub]
  exact ⟨hmem, hb,
    (cut_side_test_spec.2.2.1 planeZ0 (unitSquareAt 5) ⟨0, 0, 5⟩ hmem).1 hb⟩

/-- Claim C8: when the side test marks an edge as crossing (the flag
    and the current vertex's test disagree) but the line-plane
    intersection yields no point (parallel case), the cut step recovers
    by appending the current vertex to both the front and the back
    ring, updating only the flag — the shape of output a non-crossing
    edge would also produce on its own ring, duplicated to both. -/
theorem cut_parallel_edge_duplicates_vert (q : ViewPolygon) (prev vert : Vec3) :
    (vert_relative_pos_bool q vert = true →
      intersect_line_plane vert prev (planeAnchor q) q.normal = none →
      cutEdge q prev vert false = ([vert], [vert], true)) ∧
    (vert_relative_pos_bool q vert = false →
      intersect_line_plane vert prev (planeAnchor q) q.normal = none →
      cutEdge q prev vert true = ([vert], [vert], false)) := by
  constructor
  · intro hb hnone
    unfold cutEdge
    rw [hb, hnone]
    simp
  · intro hb hnone
    unfold cutEdge
    rw [hb, hnone]
    simp

/-- Witness for claim C8: a horizontal edge of the plane `z = 0` is
    parallel to the plane of `planeZ0`, its current vertex has a
    nonnegative side test, and the cut step duplicates it onto both
    rings. -/
theorem cut_parallel_edge_duplicates_vert_witness :
    vert_relative_pos_bool planeZ0 ⟨0, 0, 0⟩ = true ∧
    intersect_line_plane ⟨0, 0, 0⟩ ⟨1, 0, 0⟩ (planeAnchor planeZ0) planeZ0.normal = none ∧
    cutEdge planeZ0 ⟨1, 0, 0⟩ ⟨0, 0, 0⟩ false = ([⟨0, 0, 0⟩], [⟨0, 0, 0⟩], true) := by
  have hb : vert_relative_pos_bool planeZ0 ⟨0, 0, 0⟩ = true := by
    norm_num [vert_relative_pos_bool, dotOffset, planeZ0, planeAnchor, dot3, vsub]
  have hnone :
      intersect_line_plane ⟨0, 0, 0⟩ ⟨1, 0, 0⟩ (planeAnchor planeZ0) planeZ0.normal = none := by
    norm_num [intersect_line_plane, planeZ0, planeAnchor, dot3, vsub]
  exact ⟨hb, hnone,
    (cut_parallel_edge_duplicates_vert planeZ0 ⟨1, 0, 0⟩ ⟨0, 0, 0⟩).1 hb hnone⟩

/-- Every bounding box computed from a vertex list is well formed:
    each minimum is at most the corresponding maximum. -/
theorem computeBounds_valid (verts : List Vec3) :
    (computeBounds verts).xMin ≤ (computeBounds verts).xMax ∧
    (computeBounds verts).yMin ≤ (computeBounds verts).yMax ∧
    (computeBounds verts).zMin ≤ (computeBounds verts).zMax := by
  have haux : ∀ (l : List Vec3) (b : BBox),
      b.xMin ≤ b.xMax → b.yMin ≤ b.yMax → b.zMin ≤ b.zMax →
      (l.foldl boundsStep b).xMin ≤ (l.foldl boundsStep b).xMax ∧
      (l.foldl boundsStep b).yMin ≤ (l.foldl boundsStep b).yMax ∧
      (l.foldl boundsStep b).zMin ≤ (l.foldl boundsStep b).zMax := by
    intro l
    induction l with
    | nil =>
      intro b hx hy hz
      exact ⟨hx, hy, hz⟩
    | cons v t ih =>
      intro b hx hy hz
      simp only [List.foldl_cons]
      apply ih
      · exact le_trans (min_le_right _ _) (le_trans hx (le_max_right _ _))
      · exact le_trans (min_le_right _ _) (le_trans hy (le_max_right _ _))
      · exact le_trans (min_le_right _ _) (le_trans hz (le_max_right _ _))
  unfold computeBounds
  exact haux verts _ le_rfl le_rfl le_rfl


/-- Claim C6: for polygons whose bounding boxes have been computed from
    their vertices, `in_conflict` returns true exactly when the boxes
    overlap on all three axes (interval intersection), each polygon
    classifies straddling against the other's plane, and the 2D
    screen-space projections pass the geometric polygon-overlap test
    (the abstracted shapely `overlaps`). -/
theorem in_conflict_spec
    (projOverlap : List (ℚ × ℚ) → List (ℚ × ℚ) → Bool)
    (p q : ViewPolygon)
    (hp : p.bounds = computeBounds p.verts)
    (hq : q.bounds = computeBounds q.verts) :
    (in_conflict projOverlap p q = true ↔
      (p.bounds.xMin ≤ q.bounds.xMax ∧ q.bounds.xMin ≤ p.bounds.xMax) ∧
      (p.bounds.yMin ≤ q.bounds.yMax ∧ q.bounds.yMin ≤ p.bounds.yMax) ∧
      (p.bounds.zMin ≤ q.bounds.zMax ∧ q.bounds.zMin ≤ p.bounds.zMax) ∧
      relative_pos q p = 0 ∧ relative_pos p q = 0 ∧
      projOverlap (projVerts p) (projVerts q) = true) := by
  have hpv := computeBounds_valid p.verts
  have hqv := computeBounds_valid q.verts
  rw [← hp] at hpv
  rw [← hq] at hqv
  obtain ⟨hpx, hpy, hpz⟩ := hpv
  obtain ⟨hqx, hqy, hqz⟩ := hqv
  unfold in_conflict
  by_cases hza : (p.bounds.zMin > q.bounds.zMax ∧ p.bounds.zMax > q.bounds.zMax) ∨
      (p.bounds.zMin < q.bounds.zMin ∧ p.bounds.zMax < q.bounds.zMin)
  · rw [if_pos hza]
    simp only [Bool.false_eq_true, false_iff]
    rintro ⟨-, -, ⟨hz1, hz2⟩, -⟩
    rcases hza with ⟨ha, hb⟩ | ⟨ha, hb⟩ <;> linarith
  · rw [if_neg hza]
    by_cases hya : (p.bounds.yMin > q.bounds.yMax ∧ p.bounds.yMax > q.bounds.yMax) ∨
        (p.bounds.yMin < q.bounds.yMin ∧ p.bounds.yMax < q.bounds.yMin)
    · rw [if_pos hya]
      simp only [Bool.false_eq_true, false_iff]
      rintro ⟨-, ⟨hy1, hy2⟩, -, -⟩
      rcases hya with ⟨ha, hb⟩ | ⟨ha, hb⟩ <;> linarith
    · rw [if_neg hya]
      by_cases hxa : (p.bounds.xMin > q.bounds.xMax ∧ p.bounds.xMax > q.bounds.xMax) ∨
          (p.bounds.xMin < q.bounds.xMin ∧ p.bounds.xMax < q.bounds.xMin)
      · rw [if_pos hxa]
        simp only [Bool.false_eq_true, false_iff]
        rintro ⟨⟨hx1, hx2⟩, -, -, -⟩
        rcases hxa with ⟨ha, hb⟩ | ⟨ha, hb⟩ <;> linarith
      · rw [if_neg hxa]
        by_cases h4 : relative_pos q p ≠ 0
        · rw [if_pos h4]
          simp only [Bool.false_eq_true, false_iff]
          rintro ⟨-, -, -, hr, -⟩
          exact h4 hr
        · rw [if_neg h4]
          by_cases h5 : relative_pos p q ≠ 0
          · rw [if_pos h5]
            simp only [Bool.false_eq_true, false_iff]
            rintro ⟨-, -, -, -, hr, -⟩
            exact h5 hr
          · rw [if_neg h5]
            by_cases h6 : ¬ projOverlap (projVerts p) (projVerts q)
            · rw [if_pos h6]
              simp only [Bool.false_eq_true, false_iff]
              rintro ⟨-, -, -, -, -, hr⟩
              exact h6 hr
            · rw [if_neg h6]
              simp only [true_iff]
              refine ⟨⟨?_, ?_⟩, ⟨?_, ?_⟩, ⟨?_, ?_⟩,
                not_not.mp h4, not_not.mp h5, not_not.mp h6⟩
              · by_contra hcon
                push_neg at hcon
                exact hxa (Or.inl ⟨hcon, by linarith⟩)
              · by_contra hcon
                push_neg at hcon
                exact hxa (Or.inr ⟨by linarith, hcon⟩)
              · by_contra hcon
                push_neg at hcon
                exact hya (Or.inl ⟨hcon, by linarith⟩)
              · by_contra hcon
                push_neg at hcon
                exact hya (Or.inr ⟨by linarith, hcon⟩)
              · by_contra hcon
                push_neg at hcon
                exact hza (Or.inl ⟨hcon, by linarith⟩)
              · by_contra hcon
                push_neg at hcon
                exact hza (Or.inr ⟨by linarith, hcon⟩)


/-- Linearity of the plane offset in a vector difference. -/
theorem dotOffset_vsub (q : ViewPolygon) (a b : Vec3) :
    dotOffset q (vsub a b) = dotOffset q a - dot3 b q.normal := by
  simp only [dotOffset, dot3, vsub]
  ring

/-- Linearity of the plane offset in a vector sum. -/
theorem dotOffset_vadd (q : ViewPolygon) (a b : Vec3) :
    dotOffset q (vadd a b) = dotOffset q a + dot3 b q.normal := by
  simp only [dotOffset, dot3, vadd, vsub]
  ring

/-- Difference of offsets of two points is the dot product of their
    difference with the normal. -/
theorem dot3_vsub_eq_dotOffset_sub (q : ViewPolygon) (a b : Vec3) :
    dot3 (vsub a b) q.normal = dotOffset q a - dotOffset q b := by
  simp only [dotOffset, dot3, vsub]
  ring

/-- Dot product with a normalized vector is the plain dot product
    divided by the (rational) length. -/
theorem dot3_normalized (e n : Vec3) :
    dot3 (normalized e) n = dot3 e n / ratSqrt (normSq e) := by
  have hsum : ∀ a b c s : ℚ, a / s + b / s + c / s = (a + b + c) / s := by
    intro a b c s
    rw [div_add_div_same, div_add_div_same]
  simp only [normalized, dot3, div_mul_eq_mul_div]
  try exact hsum _ _ _ _

/-- Dot product with a scaled vector. -/
theorem dot3_smul (s : ℚ) (a n : Vec3) :
    dot3 (smul s a) n = s * dot3 a n := by
  simp only [smul, dot3]
  ring

/-- The rational square root is never negative. -/
theorem ratSqrt_nonneg (q : ℚ) : 0 ≤ ratSqrt q := by
  unfold ratSqrt
  split_ifs <;> positivity

/-- Characterization of the zero-tolerance side test as a proposition. -/
theorem vert_relative_pos_bool_iff (q : ViewPolygon) (v : Vec3) :
    vert_relative_pos_bool q v = true ↔ 0 ≤ dotOffset q v := by
  simp [vert_relative_pos_bool]

/-- A successful line-plane intersection lies exactly on the plane. -/
theorem intersect_some_on_plane (q : ViewPolygon) (p0 p1 X : Vec3)
    (h : intersect_line_plane p0 p1 (planeAnchor q) q.normal = some X) :
    dotOffset q X = 0 := by
  unfold intersect_line_plane at h
  by_cases hd : dot3 (vsub p1 p0) q.normal = 0
  · simp [hd] at h
  · rw [if_neg hd] at h
    have hX := (Option.some_inj.mp h).symm
    subst hX
    rw [dotOffset_vadd, dot3_smul, div_mul_cancel₀ _ hd]
    have h2 : dotOffset q p0 + dot3 (vsub (planeAnchor q) p0) q.normal = 0 := by
      simp only [dotOffset, dot3, vsub, planeAnchor]
      ring
    linarith [h2]

/-- A failed line-plane intersection means the segment direction is
    perpendicular to the normal. -/
theorem intersect_none_dot_eq_zero (q : ViewPolygon) (p0 p1 : Vec3)
    (h : intersect_line_plane p0 p1 (planeAnchor q) q.normal = none) :
    dot3 (vsub p1 p0) q.normal = 0 := by
  unfold intersect_line_plane at h
  by_cases hd : dot3 (vsub p1 p0) q.normal = 0
  · exact hd
  · rw [if_neg hd] at h
    cases h

/-- The flag produced by one cut step is the side test of the vertex
    just processed. -/
theorem cutEdge_flag_out (q : ViewPolygon) (prev vert : Vec3) (flag : Bool) :
    (cutEdge q prev vert flag).2.2 = vert_relative_pos_bool q vert := by
  unfold cutEdge
  by_cases hb : vert_relative_pos_bool q vert = true
  · rw [if_pos hb, hb]
    by_cases hf : flag = true
    · rw [if_pos hf]
    · rw [if_neg hf]
      cases intersect_line_plane vert prev (planeAnchor q) q.normal <;> rfl
  · rw [if_neg hb, (Bool.not_eq_true _).mp hb]
    by_cases hf : flag = true
    · rw [if_pos hf]
      cases intersect_line_plane vert prev (planeAnchor q) q.normal <;> rfl
    · rw [if_neg hf]

/-- Sign discipline of one cut step: assuming the flag records the side
    test of the predecessor vertex, every vertex appended to the front
    ring has nonnegative plane offset and every vertex appended to the
    back ring has nonpositive plane offset. -/
theorem cutEdge_signs (q : ViewPolygon) (prev vert : Vec3) (flag : Bool)
    (hflag : flag = vert_relative_pos_bool q prev) :
    (∀ w ∈ (cutEdge q prev vert flag).1, 0 ≤ dotOffset q w) ∧
    (∀ w ∈ (cutEdge q prev vert flag).2.1, dotOffset q w ≤ 0) := by
  have hsq := ratSqrt_nonneg (normSq (vsub prev vert))
  have hcp : (0 : ℚ) < 1 / POLYGON_CUT_PRECISION := by
    norm_num [POLYGON_CUT_PRECISION]
  by_cases hb : vert_relative_pos_bool q vert = true
  · have hbv : (0 : ℚ) ≤ dotOffset q vert := (vert_relative_pos_bool_iff q vert).mp hb
    by_cases hf : flag = true
    · unfold cutEdge
      rw [if_pos hb, if_pos hf]
      refine ⟨?_, ?_⟩
      · intro w hw
        simp only [List.mem_singleton] at hw
        subst hw
        exact hbv
      · intro w hw
        simp only [List.not_mem_nil] at hw
    · have hfalse : vert_relative_pos_bool q prev = false := by
        rw [← hflag]
        exact (Bool.not_eq_true flag).mp hf
      have hbp : dotOffset q prev < 0 := by
        by_contra hcon
        push_neg at hcon
        rw [(vert_relative_pos_bool_iff q prev).mpr hcon] at hfalse
        cases hfalse
      unfold cutEdge
      rw [if_pos hb, if_neg hf]
      rcases hsome : intersect_line_plane vert prev (planeAnchor q) q.normal with _ | X
      · exfalso
        have h0 := intersect_none_dot_eq_zero q vert prev hsome
        rw [dot3_vsub_eq_dotOffset_sub] at h0
        linarith
      · dsimp only
        have hX := intersect_some_on_plane q vert prev X hsome
        have hdir : dot3 (smul (1 / POLYGON_CUT_PRECISION) (normalized (vsub prev vert)))
            q.normal ≤ 0 := by
          rw [dot3_smul, dot3_normalized, dot3_vsub_eq_dotOffset_sub]
          have hdiv : (dotOffset q prev - dotOffset q vert) /
              ratSqrt (normSq (vsub prev vert)) ≤ 0 :=
            div_nonpos_of_nonpos_of_nonneg (by linarith) hsq
          nlinarith
        refine ⟨?_, ?_⟩
        · intro w hw
          simp only [List.mem_cons, List.mem_singleton, List.not_mem_nil, or_false] at hw
          rcases hw with hw | hw
          · subst hw
            rw [dotOffset_vsub]
            linarith
          · subst hw
            exact hbv
        · intro w hw
          simp only [List.mem_singleton] at hw
          subst hw
          rw [dotOffset_vadd]
          linarith
  · have hbf : vert_relative_pos_bool q vert = false := (Bool.not_eq_true _).mp hb
    have hbv : dotOffset q vert < 0 := by
      by_contra hcon
      push_neg at hcon
      rw [(vert_relative_pos_bool_iff q vert).mpr hcon] at hbf
      cases hbf
    by_cases hf : flag = true
    · have hbp : (0 : ℚ) ≤ dotOffset q prev :=
        (vert_relative_pos_bool_iff q prev).mp (by rw [← hflag]; exact hf)
      unfold cutEdge
      rw [if_neg hb, if_pos hf]
      rcases hsome : intersect_line_plane vert prev (planeAnchor q) q.normal with _ | X
      · exfalso
        have h0 := intersect_none_dot_eq_zero q vert prev hsome
        rw [dot3_vsub_eq_dotOffset_sub] at h0
        linarith
      · dsimp only
        have hX := intersect_some_on_plane q vert prev X hsome
        have hdir : 0 ≤ dot3 (smul (1 / POLYGON_CUT_PRECISION) (normalized (vsub prev vert)))
            q.normal := by
          rw [dot3_smul, dot3_normalized, dot3_vsub_eq_dotOffset_sub]
          have hdiv : (0 : ℚ) ≤ (dotOffset q prev - dotOffset q vert) /
              ratSqrt (normSq (vsub prev vert)) :=
            div_nonneg (by linarith) hsq
          nlinarith
        refine ⟨?_, ?_⟩
        · intro w hw
          simp only [List.mem_singleton] at hw
          subst hw
          rw [dotOffset_vadd]
          linarith
        · intro w hw
          simp only [List.mem_cons, List.mem_singleton, List.not_mem_nil, or_false] at hw
          rcases hw with hw | hw
          · subst hw
            rw [dotOffset_vsub]
            linarith
          · subst hw
            exact hbv.le
    · unfold cutEdge
      rw [if_neg hb, if_neg hf]
      refine ⟨?_, ?_⟩
      · intro w hw
        simp only [List.not_mem_nil] at hw
      · intro w hw
        simp only [List.mem_singleton] at hw
        subst hw
        exact hbv.le

/-- Sign discipline of the whole cut loop: if consecutive pairs are
    chained (each vertex is the predecessor of the next pair) and the
    flag records the side test of the first predecessor, then the front
    ring only receives vertices with nonnegative offset and the back
    ring only vertices with nonpositive offset. -/
theorem cutLoop_signs (q : ViewPolygon) :
    ∀ (pairs : List (Vec3 × Vec3)) (flag : Bool),
      List.Chain' (fun a b : Vec3 × Vec3 => a.2 = b.1) pairs →
      (∀ pr v : Vec3, pairs.head? = some (pr, v) →
        flag = vert_relative_pos_bool q pr) →
      (∀ w ∈ (cutLoop q pairs flag).1, 0 ≤ dotOffset q w) ∧
      (∀ w ∈ (cutLoop q pairs flag).2, dotOffset q w ≤ 0) := by
  intro pairs
  induction pairs with
  | nil =>
    intro flag hchain hhead
    simp [cutLoop]
  | cons hd tl ih =>
    intro flag hchain hhead
    rcases hd with ⟨pr, v⟩
    have hflag : flag = vert_relative_pos_bool q pr := hhead pr v rfl
    have hstep := cutEdge_signs q pr v flag hflag
    have hchain2 := (List.chain'_cons'.mp hchain)
    have hrec := ih (cutEdge q pr v flag).2.2 hchain2.2 (by
      intro pr2 v2 hh2
      rw [cutEdge_flag_out]
      have h3 : v = pr2 := hchain2.1 (pr2, v2) (by rw [hh2]; rfl)
      rw [h3])
    constructor
    · intro w hw
      simp only [cutLoop, List.mem_append] at hw
      rcases hw with hw | hw
      · exact hstep.1 w hw
      · exact hrec.1 w hw
    · intro w hw
      simp only [cutLoop, List.mem_append] at hw
      rcases hw with hw | hw
      · exact hstep.2 w hw
      · exact hrec.2 w hw

/-- The cyclic predecessor pairing is chained: the vertex of each pair
    is the predecessor of the next. -/
theorem cyclicPairs_chain (vs : List Vec3) :
    List.Chain' (fun a b : Vec3 × Vec3 => a.2 = b.1) (cyclicPairs vs) := by
  unfold cyclicPairs
  have haux : ∀ (l : List Vec3) (x : Vec3),
      List.Chain' (fun a b : Vec3 × Vec3 => a.2 = b.1)
        (List.zip (x :: l.dropLast) l) := by
    intro l
    induction l with
    | nil =>
      intro x
      simp
    | cons a t iht =>
      intro x
      cases t with
      | nil => simp
      | cons b t2 =>
        have hdl : (a :: b :: t2).dropLast = a :: (b :: t2).dropLast := by
          simp [List.dropLast]
        rw [hdl]
        have hih := iht a
        simp only [List.zip, List.zipWith] at hih ⊢
        refine List.chain'_cons'.mpr ⟨?_, hih⟩
        intro y hy
        cases t2 with
        | nil =>
          simp only [List.zipWith, List.head?] at hy
          rw [Option.mem_some_iff] at hy
          rw [← hy]
        | cons c t3 =>
          simp only [List.zipWith, List.head?] at hy
          rw [Option.mem_some_iff] at hy
          rw [← hy]
  exact haux vs (vs.getLastD default)

/-- Sign discipline of the two rings built by `cut_conflicting`: front
    ring vertices have nonnegative plane offset, back ring vertices
    nonpositive. -/
theorem cutRings_signs (q p : ViewPolygon) :
    (∀ w ∈ (cutRings q p).1, 0 ≤ dotOffset q w) ∧
    (∀ w ∈ (cutRings q p).2, dotOffset q w ≤ 0) := by
  unfold cutRings
  apply cutLoop_signs q (cyclicPairs p.verts) _ (cyclicPairs_chain p.verts)
  intro pr v hh
  unfold cyclicPairs at hh
  cases hverts : p.verts with
  | nil => rw [hverts] at hh; cases hh
  | cons a t =>
    rw [hverts] at hh
    simp only [List.zip, List.zipWith, List.head?] at hh
    rcases hh with hh
    have h4 : pr = (a :: t).getLastD default := by
      cases hh
      rfl
    rw [h4]

/-- A zero-norm vector yields zero dot products. -/
theorem dot3_eq_zero_of_normSq_eq_zero (w n : Vec3) (h : normSq n = 0) :
    dot3 w n = 0 := by
  unfold normSq at h
  have hx : n.x = 0 := mul_self_eq_zero.mp (by
    nlinarith [mul_self_nonneg n.x, mul_self_nonneg n.y, mul_self_nonneg n.z])
  have hy : n.y = 0 := mul_self_eq_zero.mp (by
    nlinarith [mul_self_nonneg n.x, mul_self_nonneg n.y, mul_self_nonneg n.z])
  have hz : n.z = 0 := mul_self_eq_zero.mp (by
    nlinarith [mul_self_nonneg n.x, mul_self_nonneg n.y, mul_self_nonneg n.z])
  simp [dot3, hx, hy, hz]

/-- A vertex classifying front has strictly positive plane offset. -/
theorem dotOffset_pos_of_class_one (q : ViewPolygon) (v : Vec3)
    (h : vert_relative_pos q v = 1) : 0 < dotOffset q v := by
  unfold vert_relative_pos at h
  split_ifs at h with h1 h2
  · norm_num at h
  · exact h2

/-- Nonnegative offset with a nonzero normal rules out classification
    `Behind`: the only way a nonnegative-offset vertex escapes `Front`
    is the threshold band, which classifies `On`. -/
theorem vert_class_ne_neg_one (q : ViewPolygon) (v : Vec3)
    (hd : 0 ≤ dotOffset q v) (hs : 0 < normSq q.normal) :
    vert_relative_pos q v ≠ -1 := by
  unfold vert_relative_pos
  split_ifs with h1 h2
  · norm_num
  · norm_num
  · exfalso
    push_neg at h2
    have h0 : dotOffset q v = 0 := le_antisymm h2 hd
    apply h1
    rw [h0]
    have hth : (0 : ℚ) < PLANE_DISTANCE_THRESHOLD ^ 2 := by
      norm_num [PLANE_DISTANCE_THRESHOLD]
    nlinarith

/-- Nonpositive offset rules out classification `Front`. -/
theorem vert_class_ne_one (q : ViewPolygon) (v : Vec3)
    (hd : dotOffset q v ≤ 0) : vert_relative_pos q v ≠ 1 := by
  unfold vert_relative_pos
  split_ifs with h1 h2
  · norm_num
  · exact absurd h2 (not_lt.mpr hd)
  · norm_num

/-- A polygon none of whose vertices classifies behind is front. -/
theorem relative_pos_eq_one_of (q p : ViewPolygon)
    (h : ∀ v ∈ p.verts, vert_relative_pos q v ≠ -1) :
    relative_pos q p = 1 := by
  unfold relative_pos
  rw [if_pos]
  rw [List.all_eq_true]
  intro v hv
  simpa using h v hv

/-- A polygon classifying behind has no vertex classifying front. -/
theorem relative_pos_neg_one_imp (q p : ViewPolygon)
    (h : relative_pos q p = -1) :
    ∀ v ∈ p.verts, vert_relative_pos q v ≠ 1 := by
  unfold relative_pos at h
  split_ifs at h with ha hb
  intro v hv
  simpa using List.all_eq_true.mp hb v hv

/-- `relative_pos` takes only the values 1, -1 and 0. -/
theorem relative_pos_cases (q p : ViewPolygon) :
    relative_pos q p = 1 ∨ relative_pos q p = -1 ∨ relative_pos q p = 0 := by
  unfold relative_pos
  split_ifs <;> simp

/-- A polygon with no front vertex cannot classify straddling. -/
theorem relative_pos_ne_zero_of_no_front (q p : ViewPolygon)
    (h : ∀ v ∈ p.verts, vert_relative_pos q v ≠ 1) :
    relative_pos q p ≠ 0 := by
  unfold relative_pos
  split_ifs with ha hb
  · norm_num
  · norm_num
  · exfalso
    apply hb
    rw [List.all_eq_true]
    intro v hv
    simpa using h v hv

/-- A straddling classification forces a nonzero plane normal: some
    vertex classifies front, which needs a strictly positive dot
    product, impossible against the zero normal. -/
theorem normSq_pos_of_straddle (q p : ViewPolygon)
    (h : relative_pos q p = 0) : 0 < normSq q.normal := by
  rcases lt_or_eq_of_le (normSq_nonneg q.normal) with hlt | heq
  · exact hlt
  · exfalso
    unfold relative_pos at h
    by_cases hall : (p.verts.all fun v => vert_relative_pos q v != -1) = true
    · rw [if_pos hall] at h
      norm_num at h
    · rw [if_neg hall] at h
      by_cases hb : (p.verts.all fun v => vert_relative_pos q v != 1) = true
      · rw [if_pos hb] at h
        norm_num at h
      · rw [List.all_eq_true] at hb
        push_neg at hb
        rcases hb with ⟨v, hv, hne⟩
        have hone : vert_relative_pos q v = 1 := by
          simpa using hne
        have hpos := dotOffset_pos_of_class_one q v hone
        have hz : dotOffset q v = 0 := by
          unfold dotOffset
          exact dot3_eq_zero_of_normSq_eq_zero _ _ heq.symm
        linarith

/-- The vertex ring of a surviving front fragment is the front cut
    ring. -/
theorem cut_front_verts (q p f : ViewPolygon)
    (h : (cut_conflicting q p).1 = some f) : f.verts = (cutRings q p).1 := by
  unfold cut_conflicting at h
  dsimp only at h
  split_ifs at h with hfr
  all_goals cases h
  all_goals rfl

/-- The vertex ring of a surviving back fragment is the back cut
    ring. -/
theorem cut_back_verts (q p f : ViewPolygon)
    (h : (cut_conflicting q p).2 = some f) : f.verts = (cutRings q p).2 := by
  unfold cut_conflicting at h
  dsimp only at h
  split_ifs at h with hfr
  all_goals cases h
  all_goals rfl

/-- Invariant preservation across one routing step of the partition
    loop: front-list polygons classify front against the partition
    plane; back-list polygons have no front vertex and do not classify
    straddling. -/
theorem routeStep_preserves (plane : ViewPolygon)
    (acc : List ViewPolygon × List ViewPolygon) (p : ViewPolygon)
    (hf : ∀ x ∈ acc.1, relative_pos plane x = 1)
    (hb : ∀ x ∈ acc.2, (∀ v ∈ x.verts, vert_relative_pos plane v ≠ 1) ∧
      relative_pos plane x ≠ 0) :
    (∀ x ∈ (routeStep plane acc p).1, relative_pos plane x = 1) ∧
    (∀ x ∈ (routeStep plane acc p).2,
      (∀ v ∈ x.verts, vert_relative_pos plane v ≠ 1) ∧
      relative_pos plane x ≠ 0) := by
  by_cases h1 : relative_pos plane p = 1
  · simp only [routeStep, if_pos h1]
    constructor
    · intro x hx
      rcases List.mem_append.mp hx with hx | hx
      · exact hf x hx
      · rw [List.mem_singleton] at hx
        subst hx
        exact h1
    · exact hb
  · by_cases h0 : relative_pos plane p = 0
    · simp only [routeStep, if_neg h1, if_pos h0]
      have hs : 0 < normSq plane.normal := normSq_pos_of_straddle plane p h0
      constructor
      · intro x hx
        rcases List.mem_append.mp hx with hx | hx
        · exact hf x hx
        · rw [Option.mem_toList] at hx
          have hx2 : (cut_conflicting plane p).1 = some x := hx
          have hv := cut_front_verts plane p x hx2
          apply relative_pos_eq_one_of
          intro v hvm
          rw [hv] at hvm
          exact vert_class_ne_neg_one plane v
            ((cutRings_signs plane p).1 v hvm) hs
      · intro x hx
        rcases List.mem_append.mp hx with hx | hx
        · exact hb x hx
        · rw [Option.mem_toList] at hx
          have hx2 : (cut_conflicting plane p).2 = some x := hx
          have hv := cut_back_verts plane p x hx2
          have hne1 : ∀ v ∈ x.verts, vert_relative_pos plane v ≠ 1 := by
            intro v hvm
            rw [hv] at hvm
            exact vert_class_ne_one plane v ((cutRings_signs plane p).2 v hvm)
          exact ⟨hne1, relative_pos_ne_zero_of_no_front plane x hne1⟩
    · simp only [routeStep, if_neg h1, if_neg h0]
      constructor
      · exact hf
      · intro x hx
        rcases List.mem_append.mp hx with hx | hx
        · exact hb x hx
        · rw [List.mem_singleton] at hx
          subst hx
          have hneg : relative_pos plane x = -1 := by
            rcases relative_pos_cases plane x with h | h | h
            · exact absurd h h1
            · exact h
            · exact absurd h h0
          refine ⟨relative_pos_neg_one_imp plane x hneg, ?_⟩
          rw [hneg]
          norm_num

/-- Claim C2 (corrected): during BSP partitioning, every polygon the
    routing loop sends to the front child classifies front (`1`)
    against the partitioning plane, and every polygon sent to the back
    child has no vertex classifying front and does not classify
    straddling (`0`) against that plane — so leaf polygons are
    classified consistently against their immediate parent's plane.
    The original claim — that every leaf polygon classifies
    non-straddling against *every* ancestor plane — is refuted by
    `bsp_leaf_ancestor_claim_refuted` below: the nudge the cut applies
    to intersection vertices can push a fragment vertex past a
    non-parent ancestor plane's `0.001` threshold band, producing a
    leaf polygon that straddles that ancestor. -/
theorem bsp_partition_routes_by_plane_side (plane : ViewPolygon)
    (polys : List ViewPolygon) :
    (∀ x ∈ (routeAll plane polys).1, relative_pos plane x = 1) ∧
    (∀ x ∈ (routeAll plane polys).2,
      (∀ v ∈ x.verts, vert_relative_pos plane v ≠ 1) ∧
      relative_pos plane x ≠ 0) := by
  unfold routeAll
  have haux : ∀ (l : List ViewPolygon) (acc : List ViewPolygon × List ViewPolygon),
      (∀ x ∈ acc.1, relative_pos plane x = 1) →
      (∀ x ∈ acc.2, (∀ v ∈ x.verts, vert_relative_pos plane v ≠ 1) ∧
        relative_pos plane x ≠ 0) →
      (∀ x ∈ (l.foldl (routeStep plane) acc).1, relative_pos plane x = 1) ∧
      (∀ x ∈ (l.foldl (routeStep plane) acc).2,
        (∀ v ∈ x.verts, vert_relative_pos plane v ≠ 1) ∧
        relative_pos plane x ≠ 0) := by
    intro l
    induction l with
    | nil =>
      intro acc hf hb
      exact ⟨hf, hb⟩
    | cons p t ih =>
      intro acc hf hb
      simp only [List.foldl_cons]
      have hstep := routeStep_preserves plane acc p hf hb
      exact ih _ hstep.1 hstep.2
  exact haux polys.reverse ([], [])
    (fun x hx => absurd hx (List.not_mem_nil x))
    (fun x hx => absurd hx (List.not_mem_nil x))

/-- First polygon of the counterexample: a vertical triangle in the
    plane `y = 0` with one vertex in the `On` band of the ground plane
    `polyA`; both its edges incident to that vertex have perfect-square
    squared lengths, so the embedded cut computes the exact
    real-arithmetic result of the source. -/
def polyP : ViewPolygon :=
  { verts := [⟨-1/2, 0, 3741/10000⟩, ⟨0, 0, -9/10000⟩, ⟨19/10, 0, 10741/10000⟩],
    depth := 0, rgb_color := (0, 0, 0), stroke_color := (0, 0, 0),
    opacity := 1, stroke_opacity := 1, normal := ⟨0, -1, 0⟩, marked := false,
    bounds := computeBounds
      [⟨-1/2, 0, 3741/10000⟩, ⟨0, 0, -9/10000⟩, ⟨19/10, 0, 10741/10000⟩] }

/-- Second polygon of the counterexample: the partition plane with unit
    normal `(-4/5, 0, 3/5)` whose cut of `polyP` lands a nudged
    intersection vertex below the `On` band of `polyA`. -/
def polyB : ViewPolygon :=
  { verts := [⟨3747/6250, -1, 39973/50000⟩, ⟨3747/6250, 1, 39973/50000⟩,
      ⟨-3/5000, 0, -7/10000⟩],
    depth := 0, rgb_color := (0, 0, 0), stroke_color := (0, 0, 0),
    opacity := 1, stroke_opacity := 1, normal := ⟨-4/5, 0, 3/5⟩, marked := false,
    bounds := computeBounds
      [⟨3747/6250, -1, 39973/50000⟩, ⟨3747/6250, 1, 39973/50000⟩,
        ⟨-3/5000, 0, -7/10000⟩] }

/-- Third polygon of the counterexample: a large ground square in the
    plane `z = 0`, the root partition plane of the build (identical in
    shape to `planeZ0`, duplicated so that the counterexample block
    shares no definition with other claims' theorems). -/
def polyA : ViewPolygon :=
  { verts := [⟨-10, -10, 0⟩, ⟨10, -10, 0⟩, ⟨10, 10, 0⟩, ⟨-10, 10, 0⟩],
    depth := 0, rgb_color := (0, 0, 0), stroke_color := (0, 0, 0),
    opacity := 1, stroke_opacity := 1, normal := ⟨0, 0, 1⟩, marked := false,
    bounds := computeBounds [⟨-10, -10, 0⟩, ⟨10, -10, 0⟩, ⟨10, 10, 0⟩, ⟨-10, 10, 0⟩] }

/-- Input list of the counterexample build: the root pops `polyA`
    (middle index), routes `polyP` and `polyB` to its front child,
    whose partition pops `polyB` and cuts `polyP`. -/
def c2Input : List ViewPolygon := [polyB, polyP, polyA]

/-- Evaluation helper: `Int.toNat` on the literal `25`. -/
theorem toNat25 : (25 : Int).toNat = 25 := rfl

/-- Evaluation helper: the bounded-bisection square root at `25`. -/
theorem isqrt25 : isqrt 25 = 5 := rfl

/-- Evaluation helper: the bounded-bisection square root at `4`. -/
theorem isqrt4 : isqrt 4 = 2 := rfl

/-- Evaluation helper: the bounded-bisection square root at `64`. -/
theorem isqrt64 : isqrt 64 = 8 := rfl

/-- Evaluation helper: the bounded-bisection square root at `305`. -/
theorem isqrt305 : isqrt 305 = 17 := rfl

/-- The front fragment the cut of `polyP` by `polyB` produces. -/
def fragF : ViewPolygon :=
  { verts := [⟨3113/6250, 0, 99781/150000⟩, ⟨-1/2, 0, 3741/10000⟩,
      ⟨-4/3125, 0, 3/50000⟩],
    depth := 0, rgb_color := (0, 0, 0), stroke_color := (0, 0, 0),
    opacity := 1, stroke_opacity := 1, normal := ⟨0, -1, 0⟩, marked := false,
    bounds := computeBounds
      [⟨3113/6250, 0, 99781/150000⟩, ⟨-1/2, 0, 3741/10000⟩,
        ⟨-4/3125, 0, 3/50000⟩] }

/-- The back fragment the cut of `polyP` by `polyB` produces: its
    second vertex is a nudged intersection point at
    `z = -57/50000 = -0.00114`, below the `On` band of `polyA`, while
    its last vertex lies far above the plane — the fragment straddles
    the non-parent ancestor `polyA`. -/
def fragBk : ViewPolygon :=
  { verts := [⟨1/2, 0, 19973/30000⟩, ⟨1/3125, 0, -57/50000⟩, ⟨0, 0, -9/10000⟩,
      ⟨19/10, 0, 10741/10000⟩],
    depth := 0, rgb_color := (0, 0, 0), stroke_color := (0, 0, 0),
    opacity := 1, stroke_opacity := 1, normal := ⟨0, -1, 0⟩, marked := false,
    bounds := computeBounds
      [⟨1/2, 0, 19973/30000⟩, ⟨1/3125, 0, -57/50000⟩, ⟨0, 0, -9/10000⟩,
        ⟨19/10, 0, 10741/10000⟩] }

set_option maxRecDepth 100000 in
set_option maxHeartbeats 4000000 in
/-- Concrete evaluation of the counterexample build: the finished tree
    holds exactly the two fragments of `polyP`, each with ancestor path
    front-of-`polyA` then the respective side of `polyB`. -/
theorem c2eval : buildLeaves (depth_sort_bsp c2Input 3) =
    [(fragF, [(polyA, true), (polyB, true)]),
     (fragBk, [(polyA, true), (polyB, false)])] := by
  norm_num [buildLeaves, leavesWithPaths, depth_sort_bsp, bspLoopFuel,
    treeChanged, partitionStep, partitionLeaf,
    popIdx, routeAll, routeStep, mkChild, relative_pos, vert_relative_pos,
    vert_relative_pos_bool,
    dotOffset, planeAnchor, dot3, vsub, vadd, smul, normSq, PLANE_DISTANCE_THRESHOLD,
    cut_conflicting, cutRings, cutLoop, cutEdge, cyclicPairs, intersect_line_plane,
    normalized, ratSqrt, toNat25, isqrt25, isqrt4, isqrt64, isqrt305,
    is_fragment, deltaSum, POLYGON_CULL_THRESHOLD, abs_of_pos, abs_of_nonneg,
    abs_of_neg, abs_of_nonpos,
    POLYGON_CUT_PRECISION, recalculate_bounds, computeBounds, boundsStep,
    polyP, polyB, polyA, c2Input, fragF, fragBk, List.foldl, List.all,
    List.eraseIdx, List.getD,
    List.zip, List.zipWith, List.dropLast, List.getLastD, List.reverse,
    List.reverseAux]

set_option maxRecDepth 100000 in
/-- The back fragment classifies straddling against the root ancestor
    plane `polyA`. -/
theorem c2relpos : relative_pos polyA fragBk = 0 := by
  norm_num [relative_pos, vert_relative_pos, dotOffset, planeAnchor, dot3, vsub,
    normSq, PLANE_DISTANCE_THRESHOLD, polyA, fragBk, List.all]

/-- Counterexample to claim C2 as stated: on the three-polygon input
    `c2Input` the build completes without hitting the limit, yet the
    leaf fragment `fragBk` straddles the plane of its non-parent
    ancestor `polyA` — the nudge applied by the cut pushed a fragment
    vertex past the ancestor's `0.001` threshold band. -/
theorem bsp_leaf_ancestor_claim_refuted : ¬ C2Statement c2Input 3 := by
  intro h
  have hmem : (fragBk, [(polyA, true), (polyB, false)]) ∈
      buildLeaves (depth_sort_bsp c2Input 3) := by
    rw [c2eval]
    simp
  have hpath : ((polyA, true) : ViewPolygon × Bool) ∈
      [(polyA, true), (polyB, false)] := by simp
  have h2 := (h _ hmem _ hpath).2.1 rfl
  rw [c2relpos] at h2
  cases h2

/-- Default of the `partition_cycles_limit` add-on property. -/
def PARTITION_CYCLES_DEFAULT : Nat := 500

/-- Minimum of the `partition_cycles_limit` add-on property. -/
def PARTITION_CYCLES_MIN : Nat := 5

/-- Maximum of the `partition_cycles_limit` add-on property. -/
def PARTITION_CYCLES_MAX : Nat := 1000

/-- The fuel marker never escapes: with enough fuel relative to the
    remaining budget of the cycle counter, the partition loop either
    finishes or raises the limit error. -/
theorem bspLoopFuel_no_outOfFuel :
    ∀ (fuel j cycle_limit : Nat) (t : BSPNode),
      cycle_limit < j + fuel → j ≤ cycle_limit →
      bspLoopFuel fuel j cycle_limit t ≠ .error .outOfFuel := by
  intro fuel
  induction fuel with
  | zero =>
    intro j limit t h1 h2
    omega
  | succ f ih =>
    intro j limit t h1 h2
    simp only [bspLoopFuel]
    by_cases hc : treeChanged t = true
    · rw [if_pos hc]
      by_cases hj : j + 1 ≥ limit
      · rw [if_pos hj]
        intro hcon
        injection hcon with h3
        cases h3
      · rw [if_neg hj]
        exact ih (j + 1) limit _ (by omega) (by omega)
    · rw [if_neg hc]
      intro hcon
      cases hcon

/-- Claim C5: the BSP build loop counts node-subdivision cycles and
    raises once the counter reaches the caller-supplied cycle limit
    (whose add-on property defaults to 500, with range [5, 1000]); on
    every input the build either returns a finished tree or signals the
    limit error — the fuel marker `outOfFuel`, which stands for a loop
    running beyond every bound, is unreachable. -/
theorem depth_sort_bsp_limit_or_finishes (view_polygons : List ViewPolygon)
    (cycle_limit : Nat) :
    (PARTITION_CYCLES_DEFAULT = 500 ∧ PARTITION_CYCLES_MIN = 5 ∧
      PARTITION_CYCLES_MAX = 1000) ∧
    ((∃ t, depth_sort_bsp view_polygons cycle_limit = .ok t) ∨
      depth_sort_bsp view_polygons cycle_limit = .error .limitReached) ∧
    (∀ e, depth_sort_bsp view_polygons cycle_limit = .error e →
      e = .limitReached) := by
  have hnotfuel : depth_sort_bsp view_polygons cycle_limit ≠ .error .outOfFuel := by
    unfold depth_sort_bsp
    exact bspLoopFuel_no_outOfFuel (cycle_limit + 1) 0 cycle_limit _
      (by omega) (by omega)
  refine ⟨⟨rfl, rfl, rfl⟩, ?_, ?_⟩
  · rcases hval : depth_sort_bsp view_polygons cycle_limit with e | t
    · cases e with
      | limitReached => exact Or.inr rfl
      | outOfFuel => exact absurd hval hnotfuel
    · exact Or.inl ⟨t, rfl⟩
  · intro e he
    cases e with
    | limitReached => rfl
    | outOfFuel => exact absurd he hnotfuel

/-- Input of the C5 witness: eight parallel unit squares stacked in the
    z-order 3, 1, 7, 5, 8, 6, 4, 2, which needs more subdivision cycles
    than the minimum limit 5 allows. -/
def c5Input : List ViewPolygon :=
  [unitSquareAt 3, unitSquareAt 1, unitSquareAt 7, unitSquareAt 5,
   unitSquareAt 8, unitSquareAt 6, unitSquareAt 4, unitSquareAt 2]

set_option maxRecDepth 100000 in
set_option maxHeartbeats 2000000 in
/-- Witness for claim C5: at the concrete input `c5Input` with the
    minimum cycle limit 5, the build signals the limit error, and the
    implication of the claim theorem is discharged there. -/
theorem depth_sort_bsp_limit_or_finishes_witness :
    depth_sort_bsp c5Input 5 = .error .limitReached ∧
    BuildErr.limitReached = BuildErr.limitReached := by
  have heval : depth_sort_bsp c5Input 5 = .error .limitReached := by
    norm_num [depth_sort_bsp, bspLoopFuel, treeChanged, partitionStep, partitionLeaf,
      popIdx, routeAll, routeStep, mkChild, relative_pos, vert_relative_pos,
      vert_relative_pos_bool,
      dotOffset, planeAnchor, dot3, vsub, vadd, smul, normSq, PLANE_DISTANCE_THRESHOLD,
      cut_conflicting, cutRings, cutLoop, cutEdge, cyclicPairs, intersect_line_plane,
      normalized, ratSqrt, isqrt, isqrtGo, is_fragment, deltaSum, POLYGON_CULL_THRESHOLD,
      POLYGON_CUT_PRECISION, recalculate_bounds, computeBounds, boundsStep,
      unitSquareAt, c5Input, List.foldl, List.all, List.eraseIdx, List.getD,
      List.zip, List.zipWith, List.dropLast, List.getLastD, List.reverse,
      List.reverseAux]
  exact ⟨heval,
    (depth_sort_bsp_limit_or_finishes c5Input 5).2.2 BuildErr.limitReached heval⟩

/-- Descending comparison by a scalar key: `a` precedes `b` when `a`'s
    key is at least `b`'s.  A stable sort by this relation is exactly
    Python's stable `list.sort(key=..., reverse=True)`. -/
def keyGe (key : ViewPolygon → ℚ) (a b : ViewPolygon) : Prop := key b ≤ key a

instance (key : ViewPolygon → ℚ) : DecidableRel (keyGe key) :=
  fun a b => inferInstanceAs (Decidable (key b ≤ key a))

instance (key : ViewPolygon → ℚ) : IsTotal ViewPolygon (keyGe key) :=
  ⟨fun a b => le_total (key b) (key a)⟩

instance (key : ViewPolygon → ℚ) : IsTrans ViewPolygon (keyGe key) :=
  ⟨fun _ _ _ hab hbc => le_trans hbc hab⟩

/-- Key of `heuristic.bbmid`: `(bounds[5] + bounds[4]) / 2`. -/
def bbmidKey (p : ViewPolygon) : ℚ := (p.bounds.zMax + p.bounds.zMin) / 2

/-- Key of `heuristic.bbmin`: `bounds[4]`. -/
def bbminKey (p : ViewPolygon) : ℚ := p.bounds.zMin

/-- Key of `heuristic.bbmax`: `bounds[5]`. -/
def bbmaxKey (p : ViewPolygon) : ℚ := p.bounds.zMax

/-- Key of `heuristic.weightmid` after the depth update: the polygon's
    `depth` attribute. -/
def depthKey (p : ViewPolygon) : ℚ := p.depth

/-- Depth update of the `heuristic.weightmid` branch: the polygon's
    depth becomes the mean `z` of its vertices (the source would raise
    `ZeroDivisionError` on an empty ring; here the rational division
    yields 0). -/
def weightedDepth (p : ViewPolygon) : ViewPolygon :=
  { p with depth := (p.verts.foldl (fun a v => a + v.z) 0) / (p.verts.length : ℚ) }

/-- `DepthSorter.depth_sort_bb_depth`: dispatch on the heuristic name,
    then a stable descending sort by the selected scalar key (Python's
    Timsort is stable; `List.insertionSort` by `keyGe` computes the
    same unique stably-descending reordering).  The `weightmid` branch
    first rewrites each polygon's depth to its mean vertex `z`.  An
    unknown heuristic raises `TypeError` in the source, modelled as
    `none`. -/
def depth_sort_bb_depth (view_polygons : List ViewPolygon) (sorting_heuristic : String) :
    Option (List ViewPolygon) :=
  if sorting_heuristic = "heuristic.bbmid" then
    some (view_polygons.insertionSort (keyGe bbmidKey))
  else if sorting_heuristic = "heuristic.bbmin" then
    some (view_polygons.insertionSort (keyGe bbminKey))
  else if sorting_heuristic = "heuristic.bbmax" then
    some (view_polygons.insertionSort (keyGe bbmaxKey))
  else if sorting_heuristic = "heuristic.weightmid" then
    some ((view_polygons.map weightedDepth).insertionSort (keyGe depthKey))
  else none

/-- A stable descending key sort: the output is a permutation of the
    input, pairwise descending in the key, and ties keep input order
    (the sublist of each key class is unchanged). -/
theorem insertionSort_key_stable (key : ViewPolygon → ℚ) (l : List ViewPolygon) :
    (l.insertionSort (keyGe key)).Perm l ∧
    (l.insertionSort (keyGe key)).Sorted (keyGe key) ∧
    ∀ c : ℚ, (l.insertionSort (keyGe key)).filter (fun x => decide (key x = c)) =
      l.filter (fun x => decide (key x = c)) := by
  refine ⟨List.perm_insertionSort _ l, List.sorted_insertionSort _ l, ?_⟩
  intro c
  have hmemkey : ∀ x ∈ l.filter (fun x => decide (key x = c)), key x = c := by
    intro x hx
    have h2 := (List.mem_filter.mp hx).2
    simpa using h2
  have hpair : (l.filter (fun x => decide (key x = c))).Pairwise (keyGe key) := by
    rw [List.pairwise_iff_forall_sublist]
    intro a b hab
    have ha := hmemkey a (hab.subset (by simp))
    have hb := hmemkey b (hab.subset (by simp))
    unfold keyGe
    rw [ha, hb]
  have hsub := List.sublist_insertionSort hpair (List.filter_sublist l)
  have hsubf := hsub.filter (fun x => decide (key x = c))
  rw [List.filter_eq_self.mpr (fun a ha => (List.mem_filter.mp ha).2)] at hsubf
  have hperm := (List.perm_insertionSort (keyGe key) l).filter (fun x => decide (key x = c))
  exact (hsubf.eq_of_length hperm.length_eq.symm).symm

/-- Unit square at depth `i` shifted to `x ∈ [3i, 3i+1]`, so that the
    squares for distinct `i ≥ 1` do not overlap in screen projection. -/
def sepSquare (i : ℚ) : ViewPolygon :=
  { verts := [⟨3*i, 0, i⟩, ⟨3*i+1, 0, i⟩, ⟨3*i+1, 1, i⟩, ⟨3*i, 1, i⟩],
    depth := i, rgb_color := (0, 0, 0), stroke_color := (0, 0, 0),
    opacity := 1, stroke_opacity := 1, normal := ⟨0, 0, 1⟩, marked := false,
    bounds := computeBounds [⟨3*i, 0, i⟩, ⟨3*i+1, 0, i⟩, ⟨3*i+1, 1, i⟩, ⟨3*i, 1, i⟩] }

/-- The concrete scenario of claim C9: the `bbmin` (closest-vertex)
    heuristic emits the three unit squares farthest first. -/
theorem c9concrete :
    depth_sort_bb_depth [sepSquare 1, sepSquare 2, sepSquare 3] "heuristic.bbmin" =
      some [sepSquare 3, sepSquare 2, sepSquare 1] := by
  unfold depth_sort_bb_depth
  rw [if_neg (by decide), if_pos rfl]
  norm_num [List.insertionSort, List.orderedInsert, keyGe,
    bbminKey, sepSquare, computeBounds, boundsStep, List.foldl, min_def, max_def]

/-- Claim C9: each branch of the Depth Heuristic Sorter returns the
    input reordered descending (farthest first) by the branch's scalar
    key — `bbmin` the box minimum depth, `bbmid` the box depth middle,
    `bbmax` the box maximum depth, `weightmid` the mean vertex depth
    written into `depth` first — and the sort is stable: polygons of
    equal key keep their input order (the filtered sublist at each key
    value is unchanged).  An unknown heuristic name yields no result
    (`TypeError`).  Concretely, three non-overlapping unit squares at
    depths 1, 2, 3 are emitted by the closest-vertex heuristic `bbmin`
    in the order [depth 3, depth 2, depth 1]. -/
theorem depth_sort_bb_depth_spec (l : List ViewPolygon) :
    (∀ out, depth_sort_bb_depth l "heuristic.bbmin" = some out →
      out.Perm l ∧ out.Sorted (keyGe bbminKey) ∧
      ∀ c : ℚ, out.filter (fun x => decide (bbminKey x = c)) =
        l.filter (fun x => decide (bbminKey x = c))) ∧
    (∀ out, depth_sort_bb_depth l "heuristic.bbmid" = some out →
      out.Perm l ∧ out.Sorted (keyGe bbmidKey) ∧
      ∀ c : ℚ, out.filter (fun x => decide (bbmidKey x = c)) =
        l.filter (fun x => decide (bbmidKey x = c))) ∧
    (∀ out, depth_sort_bb_depth l "heuristic.bbmax" = some out →
      out.Perm l ∧ out.Sorted (keyGe bbmaxKey) ∧
      ∀ c : ℚ, out.filter (fun x => decide (bbmaxKey x = c)) =
        l.filter (fun x => decide (bbmaxKey x = c))) ∧
    (∀ out, depth_sort_bb_depth l "heuristic.weightmid" = some out →
      out.Perm (l.map weightedDepth) ∧ out.Sorted (keyGe depthKey) ∧
      ∀ c : ℚ, out.filter (fun x => decide (depthKey x = c)) =
        (l.map weightedDepth).filter (fun x => decide (depthKey x = c))) ∧
    depth_sort_bb_depth l "invalid" = none ∧
    depth_sort_bb_depth [sepSquare 1, sepSquare 2, sepSquare 3] "heuristic.bbmin" =
      some [sepSquare 3, sepSquare 2, sepSquare 1] := by
  refine ⟨?_, ?_, ?_, ?_, ?_, c9concrete⟩
  · intro out hout
    have h2 : out = l.insertionSort (keyGe bbminKey) := by
      simp [depth_sort_bb_depth] at hout
      exact hout.symm
    subst h2
    exact insertionSort_key_stable bbminKey l
  · intro out hout
    have h2 : out = l.insertionSort (keyGe bbmidKey) := by
      simp [depth_sort_bb_depth] at hout
      exact hout.symm
    subst h2
    exact insertionSort_key_stable bbmidKey l
  · intro out hout
    have h2 : out = l.insertionSort (keyGe bbmaxKey) := by
      simp [depth_sort_bb_depth] at hout
      exact hout.symm
    subst h2
    exact insertionSort_key_stable bbmaxKey l
  · intro out hout
    have h2 : out = (l.map weightedDepth).insertionSort (keyGe depthKey) := by
      simp [depth_sort_bb_depth] at hout
      exact hout.symm
    subst h2
    exact insertionSort_key_stable depthKey (l.map weightedDepth)
  · simp [depth_sort_bb_depth]

/-- Witness for claim C9: the `bbmin` implication applied at the
    concrete three-square scenario, whose hypothesis is discharged by
    the evaluated sort. -/
theorem depth_sort_bb_depth_spec_witness :
    ([sepSquare 3, sepSquare 2, sepSquare 1] : List ViewPolygon).Perm
      [sepSquare 1, sepSquare 2, sepSquare 3] := by
  have h := depth_sort_bb_depth_spec [sepSquare 1, sepSquare 2, sepSquare 3]
  exact (h.1 [sepSquare 3, sepSquare 2, sepSquare 1] h.2.2.2.2.2).1

/-- Witness for claim C6: at the concrete polygon `planeZ0` (against
    itself, with the always-false projection overlap) both
    computed-bounds hypotheses hold definitionally and the conflict
    test evaluates to false. -/
theorem in_conflict_spec_witness :
    planeZ0.bounds = computeBounds planeZ0.verts ∧
    in_conflict (fun _ _ => false) planeZ0 planeZ0 = false := by
  have hp : planeZ0.bounds = computeBounds planeZ0.verts := rfl
  have hiff := in_conflict_spec (fun _ _ => false) planeZ0 planeZ0 hp hp
  refine ⟨hp, ?_⟩
  have hnot : ¬ in_conflict (fun _ _ => false) planeZ0 planeZ0 = true := by
    rw [hiff]
    rintro ⟨-, -, -, -, -, hfalse⟩
    simp at hfalse
  cases hin : in_conflict (fun _ _ => false) planeZ0 planeZ0
  · rfl
  · exact absurd hin hnot

/-- The `OctreeNode` class.  `children` is the list of non-`None` child
    slots in slot order (children are created eight at a time by
    `subdivide`; a `nondivided` node has none).  The Python `parent`
    back-pointer is not stored: every traversal below passes the chain
    of ancestor `unresolved` lists downward instead, which is the only
    data `resolve_node` reads through `parent`.  The `depth` counter and
    `bounds` are kept as plain fields. -/
inductive ONode where
  | mk (bounds : BBox) (depth : Nat) (children : List ONode)
      (unresolved resolved : List ViewPolygon) (nondivided : Bool)

instance : Inhabited ONode := ⟨.mk default 0 [] [] [] true⟩

/-- Bounds field of a node. -/
def ONode.nodeBounds : ONode → BBox
  | .mk b _ _ _ _ _ => b

/-- `OctreeNode.contains_polygon`: the polygon bounding box fits inside
    the node bounds. -/
def contains_polygon (n : ONode) (view_polygon : ViewPolygon) : Bool :=
  if view_polygon.bounds.xMin < n.nodeBounds.xMin ∨
     view_polygon.bounds.xMax > n.nodeBounds.xMax ∨
     view_polygon.bounds.yMin < n.nodeBounds.yMin ∨
     view_polygon.bounds.yMax > n.nodeBounds.yMax ∨
     view_polygon.bounds.zMin < n.nodeBounds.zMin ∨
     view_polygon.bounds.zMax > n.nodeBounds.zMax
  then false else true

/-- A fresh `OctreeNode(...)` as created by `subdivide`: given bounds,
    incremented depth, no children, empty lists, `nondivided`. -/
def mkOctant (xMin xMax yMin yMax zMin zMax : ℚ) (depth : Nat) : ONode :=
  .mk ⟨xMin, xMax, yMin, yMax, zMin, zMax⟩ depth [] [] [] true

/-- The eight children created by `OctreeNode.subdivide`, in slot order
    0-7 (front top-left .. back bottom-right), with halved bounds. -/
def subdivideChildren (b : BBox) (depth : Nat) : List ONode :=
  let xh := (b.xMax + b.xMin) / 2
  let yh := (b.yMax + b.yMin) / 2
  let zh := (b.zMax + b.zMin) / 2
  [mkOctant b.xMin xh b.yMin yh b.zMin zh (depth + 1),
   mkOctant xh b.xMax b.yMin yh b.zMin zh (depth + 1),
   mkOctant b.xMin xh yh b.yMax b.zMin zh (depth + 1),
   mkOctant xh b.xMax yh b.yMax b.zMin zh (depth + 1),
   mkOctant b.xMin xh b.yMin yh zh b.zMax (depth + 1),
   mkOctant xh b.xMax b.yMin yh zh b.zMax (depth + 1),
   mkOctant b.xMin xh yh b.yMax zh b.zMax (depth + 1),
   mkOctant xh b.xMax yh b.yMax zh b.zMax (depth + 1)]

/-- `child.unresolved.append(polygon)`. -/
def pushUnres (p : ViewPolygon) : ONode → ONode
  | .mk b d ch u r nd => .mk b d ch (u ++ [p]) r nd

/-- Inner loop of the `subdivide` relocation: append the polygon to the
    first child that contains it (`none` when no child does). -/
def pushFirstContaining (p : ViewPolygon) : List ONode → Option (List ONode)
  | [] => none
  | c :: rest =>
    if contains_polygon c p then some (pushUnres p c :: rest)
    else
      match pushFirstContaining p rest with
      | some rest2 => some (c :: rest2)
      | none => none

/-- The relocation loop at the end of `OctreeNode.subdivide`:
    `for polygon in self.unresolved: ... self.unresolved.remove(polygon)`.
    Python iterates by a hidden index that advances every round even
    when the current element was removed (so the element sliding into
    the freed slot is skipped); the index `k` reproduces that.  The
    fuel is the initial list length, an upper bound on the rounds the
    Python loop performs. -/
def relocateGo : Nat → Nat → List ViewPolygon × List ONode → List ViewPolygon × List ONode
  | 0, _, st => st
  | fuel + 1, k, st =>
    if hk : k < st.1.length then
      match pushFirstContaining (st.1.get ⟨k, hk⟩) st.2 with
      | some ch2 => relocateGo fuel (k + 1) (st.1.eraseIdx k, ch2)
      | none => relocateGo fuel (k + 1) st
    else st

/-- Child loop of `OctreeNode.add_polygon`: recurse (`g`) into the
    first child containing the polygon, replacing that child; `some
    none` reports that no child contains it (`inserted = False`), and
    `none` propagates fuel exhaustion of the recursion. -/
def updateFirstContaining (p : ViewPolygon) (g : ONode → Option ONode) :
    List ONode → Option (Option (List ONode))
  | [] => some none
  | c :: rest =>
    if contains_polygon c p then
      match g c with
      | some c2 => some (some (c2 :: rest))
      | none => none
    else
      match updateFirstContaining p g rest with
      | some (some rest2) => some (some (c :: rest2))
      | some none => some none
      | none => none

/-- `OctreeNode.add_polygon`: a fresh empty leaf absorbs the polygon;
    a nonempty leaf subdivides (creating children and relocating its
    polygons) and then inserts; a divided node inserts into the first
    containing child, or keeps the polygon itself.  The Python
    recursion has no structural bound (a point-sized polygon can
    recurse until float precision saturates), so structural fuel makes
    it total, `none` standing for running out. -/
def addPolygonFuel : Nat → ViewPolygon → ONode → Option ONode
  | 0, _, _ => none
  | fuel + 1, p, .mk b d ch unres res nd =>
    if nd then
      if unres.isEmpty then some (.mk b d ch (unres ++ [p]) res nd)
      else
        let st := relocateGo unres.length 0 (unres, subdivideChildren b d)
        match updateFirstContaining p (addPolygonFuel fuel p) st.2 with
        | some (some ch2) => some (.mk b d ch2 st.1 res false)
        | some none => some (.mk b d st.2 (st.1 ++ [p]) res false)
        | none => none
    else
      match updateFirstContaining p (addPolygonFuel fuel p) ch with
      | some (some ch2) => some (.mk b d ch2 unres res false)
      | some none => some (.mk b d ch (unres ++ [p]) res false)
      | none => none

/-- The root `OctreeNode(xMin, ..., zMax, None, 0)` of `Octree.__init__`. -/
def emptyRoot (b : BBox) : ONode := .mk b 0 [] [] [] true

/-- `Octree.insert_polygon` over a polygon list: each polygon is added
    at the root in order. -/
def insertAll (fuel : Nat) (polys : List ViewPolygon) (root : ONode) : Option ONode :=
  polys.foldl (fun acc p => acc.bind (addPolygonFuel fuel p)) (some root)

/-- Inner scan of `resolve_node`: the first polygon among the other
    unresolved polygons of the node that `in_conflict` flags against
    the current one. -/
def findConflict (ov : List (ℚ × ℚ) → List (ℚ × ℚ) → Bool)
    (polygon : ViewPolygon) (others : List ViewPolygon) : Option ViewPolygon :=
  others.find? (fun q => in_conflict ov polygon q)

/-- Ancestor scan of `resolve_node`: walk the parent chain nearest
    first (`checked_node = self.parent; ... = checked_node.parent`) and
    return the first conflicting unresolved polygon found. -/
def findAncestorConflict (ov : List (ℚ × ℚ) → List (ℚ × ℚ) → Bool)
    (polygon : ViewPolygon) : List (List ViewPolygon) → Option ViewPolygon
  | [] => none
  | u :: rest =>
    match u.find? (fun q => in_conflict ov polygon q) with
    | some q => some q
    | none => findAncestorConflict ov polygon rest

/-- The `while len(self.unresolved) > 0` loop of
    `OctreeNode.resolve_node`, acting on the node state it touches: its
    own `unresolved` and `resolved` lists, reading the ancestor
    `unresolved` lists.  A conflict with another unresolved polygon of
    the node, or else with an ancestor polygon, cuts the current
    polygon by the plane of the conflicting one (`cut_conflicting(other,
    polygon)`), drops it, and appends the surviving fragments; with no
    conflict it moves to `resolved`.  The loop has no a-priori bound
    (cutting can add two fragments for one removal), so structural fuel
    makes it total; at exhausted fuel only an already-empty list
    returns. -/
def resolveNodeFuel (ov : List (ℚ × ℚ) → List (ℚ × ℚ) → Bool) :
    Nat → List ViewPolygon → List ViewPolygon → List (List ViewPolygon) →
    Option (List ViewPolygon)
  | 0, unres, res, _ => if unres.isEmpty then some res else none
  | _ + 1, [], res, _ => some res
  | fuel + 1, polygon :: rest, res, anc =>
    match findConflict ov polygon rest with
    | some q =>
      resolveNodeFuel ov fuel
        (rest ++ (cut_conflicting q polygon).1.toList ++
          (cut_conflicting q polygon).2.toList) res anc
    | none =>
      match findAncestorConflict ov polygon anc with
      | some q =>
        resolveNodeFuel ov fuel
          (rest ++ (cut_conflicting q polygon).1.toList ++
            (cut_conflicting q polygon).2.toList) res anc
      | none => resolveNodeFuel ov fuel rest (res ++ [polygon]) anc

mutual

/-- `Octree.resolve_conflicts`: the source collects the compressed
    node list and calls `resolve_node` on every node, deepest first.
    `compress_tree` only detaches childless nodes with empty
    `unresolved` lists (for which `resolve_node` is a no-op), and
    `resolve_node` writes only its own two lists while reading,
    beyond them, only the `unresolved` lists of strict ancestors — which in
    deepest-first order still hold their pre-resolution contents when a
    descendant is processed.  The per-node results are therefore
    independent, and the same final tree is computed by this recursion,
    which resolves each node against the ancestor lists as they were
    inserted and passes its own original `unresolved` list down
    to its children. -/
def resolveTree (ov : List (ℚ × ℚ) → List (ℚ × ℚ) → Bool) (fuel : Nat) :
    List (List ViewPolygon) → ONode → Option ONode
  | anc, .mk b d ch unres res nd =>
    match resolveNodeFuel ov fuel unres res anc with
    | none => none
    | some res2 =>
      match resolveChildren ov fuel (unres :: anc) ch with
      | none => none
      | some ch2 => some (.mk b d ch2 [] res2 nd)

/-- `resolveTree` over a child list, threading failure. -/
def resolveChildren (ov : List (ℚ × ℚ) → List (ℚ × ℚ) → Bool) (fuel : Nat) :
    List (List ViewPolygon) → List ONode → Option (List ONode)
  | _, [] => some []
  | anc, c :: rest =>
    match resolveTree ov fuel anc c, resolveChildren ov fuel anc rest with
    | some c2, some rest2 => some (c2 :: rest2)
    | _, _ => none

end

/-- `Octree.resolve_conflicts` from the root: no ancestors above the
    root. -/
def octreeResolveConflicts (ov : List (ℚ × ℚ) → List (ℚ × ℚ) → Bool)
    (fuel : Nat) (t : ONode) : Option ONode :=
  resolveTree ov fuel [] t

mutual

/-- All `unresolved` polygons of a tree, in preorder. -/
def allUnresolved : ONode → List ViewPolygon
  | .mk _ _ ch u _ _ => u ++ allUnresolvedL ch

/-- All `unresolved` polygons of a child list. -/
def allUnresolvedL : List ONode → List ViewPolygon
  | [] => []
  | c :: rest => allUnresolved c ++ allUnresolvedL rest

end

mutual

/-- All `resolved` polygons of a tree, in preorder (the list
    `Octree.get_resolved_polygons` collects, up to traversal order). -/
def allResolved : ONode → List ViewPolygon
  | .mk _ _ ch _ r _ => r ++ allResolvedL ch

/-- All `resolved` polygons of a child list. -/
def allResolvedL : List ONode → List ViewPolygon
  | [] => []
  | c :: rest => allResolved c ++ allResolvedL rest

end

mutual

/-- Largest `unresolved` list length over the nodes of a tree — a
    sufficient per-node fuel for conflict-free resolution. -/
def maxU : ONode → Nat
  | .mk _ _ ch u _ _ => max u.length (maxUL ch)

/-- Largest `unresolved` list length over a child list. -/
def maxUL : List ONode → Nat
  | [] => 0
  | c :: rest => max (maxU c) (maxUL rest)

end

mutual

/-- The expected result of a conflict-free resolution: the `unresolved` list of every node emptied into the end of its `resolved` list, in
    order. -/
def clearTree : ONode → ONode
  | .mk b d ch u r nd => .mk b d (clearTreeL ch) [] (r ++ u) nd

/-- `clearTree` over a child list. -/
def clearTreeL : List ONode → List ONode
  | [] => []
  | c :: rest => clearTree c :: clearTreeL rest

end

/-- With an always-false projection overlap, the conflict test is
    always false (its final branch requires the overlap). -/
theorem in_conflict_eq_false (ov : List (ℚ × ℚ) → List (ℚ × ℚ) → Bool)
    (hov : ∀ a b, ov a b = false) (p q : ViewPolygon) :
    in_conflict ov p q = false := by
  unfold in_conflict
  dsimp only
  split_ifs with h1 h2 h3 h4 h5 h6 <;>
    first
      | rfl
      | (rw [hov] at h6
         cases h6)

/-- No inner conflict is found when the overlap test is always
    false. -/
theorem findConflict_eq_none (ov : List (ℚ × ℚ) → List (ℚ × ℚ) → Bool)
    (hov : ∀ a b, ov a b = false) (p : ViewPolygon) (l : List ViewPolygon) :
    findConflict ov p l = none := by
  unfold findConflict
  rw [List.find?_eq_none]
  intro q hq
  simp [in_conflict_eq_false ov hov]

/-- No ancestor conflict is found when the overlap test is always
    false. -/
theorem findAncestorConflict_eq_none (ov : List (ℚ × ℚ) → List (ℚ × ℚ) → Bool)
    (hov : ∀ a b, ov a b = false) (p : ViewPolygon) :
    ∀ anc, findAncestorConflict ov p anc = none := by
  intro anc
  induction anc with
  | nil => rfl
  | cons u rest ih =>
    unfold findAncestorConflict
    have hfind : u.find? (fun q => in_conflict ov p q) = none := by
      rw [List.find?_eq_none]
      intro q hq
      simp [in_conflict_eq_false ov hov]
    rw [hfind]
    exact ih

/-- Conflict-free node resolution: with enough fuel the loop moves the
    whole unresolved list, in order and unchanged, to the end of the
    resolved list. -/
theorem resolveNodeFuel_no_conflict (ov : List (ℚ × ℚ) → List (ℚ × ℚ) → Bool)
    (hov : ∀ a b, ov a b = false) :
    ∀ (fuel : Nat) (unres res : List ViewPolygon) (anc : List (List ViewPolygon)),
      unres.length ≤ fuel →
      resolveNodeFuel ov fuel unres res anc = some (res ++ unres) := by
  intro fuel
  induction fuel with
  | zero =>
    intro unres res anc h
    rw [Nat.le_zero] at h
    rw [List.length_eq_zero] at h
    subst h
    simp [resolveNodeFuel]
  | succ f ih =>
    intro unres res anc h
    cases unres with
    | nil => simp [resolveNodeFuel]
    | cons p rest =>
      simp only [resolveNodeFuel, findConflict_eq_none ov hov,
        findAncestorConflict_eq_none ov hov]
      rw [ih rest (res ++ [p]) anc (by simpa using Nat.le_of_succ_le_succ h)]
      simp

mutual

/-- Conflict-free tree resolution computes exactly `clearTree`. -/
theorem resolveTree_no_conflict (ov : List (ℚ × ℚ) → List (ℚ × ℚ) → Bool)
    (hov : ∀ a b, ov a b = false) (fuel : Nat) :
    ∀ (anc : List (List ViewPolygon)) (t : ONode), maxU t ≤ fuel →
      resolveTree ov fuel anc t = some (clearTree t)
  | anc, .mk b d ch u r nd, hfuel => by
    simp only [maxU] at hfuel
    obtain ⟨hu, hc⟩ := Nat.max_le.mp hfuel
    have hnode : resolveNodeFuel ov fuel u r anc = some (r ++ u) :=
      resolveNodeFuel_no_conflict ov hov fuel u r anc hu
    have hch : resolveChildren ov fuel (u :: anc) ch = some (clearTreeL ch) :=
      resolveChildren_no_conflict ov hov fuel (u :: anc) ch hc
    simp only [resolveTree, hnode, hch, clearTree]

/-- Conflict-free resolution of a child list. -/
theorem resolveChildren_no_conflict (ov : List (ℚ × ℚ) → List (ℚ × ℚ) → Bool)
    (hov : ∀ a b, ov a b = false) (fuel : Nat) :
    ∀ (anc : List (List ViewPolygon)) (l : List ONode), maxUL l ≤ fuel →
      resolveChildren ov fuel anc l = some (clearTreeL l)
  | _, [], _ => by simp [resolveChildren, clearTreeL]
  | anc, c :: rest, hfuel => by
    simp only [maxUL] at hfuel
    obtain ⟨hc, hr⟩ := Nat.max_le.mp hfuel
    have h1 : resolveTree ov fuel anc c = some (clearTree c) :=
      resolveTree_no_conflict ov hov fuel anc c hc
    have h2 : resolveChildren ov fuel anc rest = some (clearTreeL rest) :=
      resolveChildren_no_conflict ov hov fuel anc rest hr
    simp only [resolveChildren, h1, h2, clearTreeL]

end

mutual

/-- After a conflict-free resolution no node holds unresolved
    polygons. -/
theorem allUnresolved_clearTree : ∀ t : ONode, allUnresolved (clearTree t) = []
  | .mk b d ch u r nd => by
    simp only [clearTree, allUnresolved, allUnresolvedL_clearTreeL ch,
      List.append_nil]

/-- Child-list version of `allUnresolved_clearTree`. -/
theorem allUnresolvedL_clearTreeL : ∀ l : List ONode, allUnresolvedL (clearTreeL l) = []
  | [] => by simp [clearTreeL, allUnresolvedL]
  | c :: rest => by
    simp only [clearTreeL, allUnresolvedL, allUnresolved_clearTree c,
      allUnresolvedL_clearTreeL rest, List.append_nil]

end

/-- Middle-exchange permutation of appended lists. -/
theorem append_exchange_perm (a b c d : List ViewPolygon) :
    ((a ++ b) ++ (c ++ d)).Perm ((a ++ c) ++ (b ++ d)) := by
  rw [List.perm_iff_count]
  intro x
  simp only [List.count_append]
  omega

mutual

/-- After a conflict-free resolution the resolved polygons are, as a
    multiset, the original resolved plus the original unresolved
    ones. -/
theorem allResolved_clearTree :
    ∀ t : ONode, (allResolved (clearTree t)).Perm (allResolved t ++ allUnresolved t)
  | .mk b d ch u r nd => by
    simp only [clearTree, allResolved, allUnresolved]
    exact (List.Perm.append_left (r ++ u) (allResolvedL_clearTreeL ch)).trans
      (append_exchange_perm r u (allResolvedL ch) (allUnresolvedL ch))

/-- Child-list version of `allResolved_clearTree`. -/
theorem allResolvedL_clearTreeL :
    ∀ l : List ONode, (allResolvedL (clearTreeL l)).Perm (allResolvedL l ++ allUnresolvedL l)
  | [] => by simp [clearTreeL, allResolvedL, allUnresolvedL]
  | c :: rest => by
    simp only [clearTreeL, allResolvedL, allUnresolvedL]
    exact ((allResolved_clearTree c).append (allResolvedL_clearTreeL rest)).trans
      (append_exchange_perm (allResolved c) (allUnresolved c)
        (allResolvedL rest) (allUnresolvedL rest))

end

/-- Removing an element by index and re-consing it permutes back to
    the original list. -/
theorem get_cons_eraseIdx_perm :
    ∀ (l : List ViewPolygon) (k : Nat) (h : k < l.length),
      (l.get ⟨k, h⟩ :: l.eraseIdx k).Perm l
  | a :: t, 0, _ => by simp
  | a :: t, k + 1, h => by
    have hk : k < t.length := by simpa using Nat.lt_of_succ_lt_succ h
    have ih := get_cons_eraseIdx_perm t k hk
    have h1 : ((a :: t).get ⟨k + 1, h⟩ :: (a :: t).eraseIdx (k + 1)) =
        (t.get ⟨k, hk⟩ :: a :: t.eraseIdx k) := rfl
    rw [h1]
    exact (List.Perm.swap a _ _).trans (ih.cons a)

/-- Appending one element at the end of the first list is a
    permutation of consing it in front. -/
theorem snoc_append_perm (u X : List ViewPolygon) (p : ViewPolygon) :
    ((u ++ [p]) ++ X).Perm (p :: (u ++ X)) := by
  rw [List.perm_iff_count]
  intro x
  simp only [List.count_append, List.count_cons, List.count_singleton]
  by_cases hx : x = p <;> simp [hx] <;> omega

mutual

/-- Well-formedness maintained by the insertion code: a `nondivided`
    node has no children (the Python constructor creates none and only
    `subdivide` adds them, clearing the flag). -/
def wfNd : ONode → Prop
  | .mk _ _ ch _ _ nd => (nd = true → ch = []) ∧ wfNdL ch

/-- `wfNd` over a child list. -/
def wfNdL : List ONode → Prop
  | [] => True
  | c :: rest => wfNd c ∧ wfNdL rest

end

/-- Fresh octants are well formed. -/
theorem wfNdL_subdivideChildren (b : BBox) (d : Nat) :
    wfNdL (subdivideChildren b d) := by
  simp [subdivideChildren, mkOctant, wfNdL, wfNd]

/-- Fresh octants hold no unresolved polygons. -/
theorem allUnresolvedL_subdivideChildren (b : BBox) (d : Nat) :
    allUnresolvedL (subdivideChildren b d) = [] := by
  simp [subdivideChildren, mkOctant, allUnresolvedL, allUnresolved]

/-- Fresh octants hold no resolved polygons. -/
theorem allResolvedL_subdivideChildren (b : BBox) (d : Nat) :
    allResolvedL (subdivideChildren b d) = [] := by
  simp [subdivideChildren, mkOctant, allResolvedL, allResolved]

/-- Appending to the unresolved list of a node adds exactly that polygon
    and changes nothing else. -/
theorem pushUnres_props (p : ViewPolygon) (c : ONode) :
    (allUnresolved (pushUnres p c)).Perm (p :: allUnresolved c) ∧
    allResolved (pushUnres p c) = allResolved c ∧
    (wfNd c → wfNd (pushUnres p c)) := by
  cases c with
  | mk b d ch u r nd =>
    refine ⟨?_, rfl, ?_⟩
    · simp only [pushUnres, allUnresolved]
      exact snoc_append_perm u (allUnresolvedL ch) p
    · intro hwf
      simpa [pushUnres, wfNd] using hwf

/-- The relocation push conserves the polygon multiset, the resolved
    lists and well-formedness. -/
theorem pushFirstContaining_conserves (p : ViewPolygon) :
    ∀ (l l' : List ONode), pushFirstContaining p l = some l' →
      (allUnresolvedL l').Perm (p :: allUnresolvedL l) ∧
      allResolvedL l' = allResolvedL l ∧
      (wfNdL l → wfNdL l') := by
  intro l
  induction l with
  | nil => intro l' h; cases h
  | cons c rest ih =>
    intro l' h
    simp only [pushFirstContaining] at h
    by_cases hc : contains_polygon c p = true
    · rw [if_pos hc] at h
      rw [← Option.some_inj.mp h]
      refine ⟨?_, ?_, ?_⟩
      · simp only [allUnresolvedL]
        exact ((pushUnres_props p c).1.append_right (allUnresolvedL rest)).trans
          (List.Perm.refl _)
      · simp only [allResolvedL, (pushUnres_props p c).2.1]
      · intro hwf
        rw [show wfNdL (pushUnres p c :: rest) = (wfNd (pushUnres p c) ∧ wfNdL rest)
          from rfl]
        rw [show wfNdL (c :: rest) = (wfNd c ∧ wfNdL rest) from rfl] at hwf
        exact ⟨(pushUnres_props p c).2.2 hwf.1, hwf.2⟩
    · rw [if_neg hc] at h
      rcases hrec : pushFirstContaining p rest with _ | rest2
      · rw [hrec] at h
        cases h
      · rw [hrec] at h
        rw [← Option.some_inj.mp h]
        obtain ⟨hperm, hres, hwf⟩ := ih rest2 hrec
        refine ⟨?_, ?_, ?_⟩
        · simp only [allUnresolvedL]
          exact (hperm.append_left (allUnresolved c)).trans List.perm_middle
        · simp only [allResolvedL, hres]
        · intro hw
          rw [show wfNdL (c :: rest2) = (wfNd c ∧ wfNdL rest2) from rfl]
          rw [show wfNdL (c :: rest) = (wfNd c ∧ wfNdL rest) from rfl] at hw
          exact ⟨hw.1, hwf hw.2⟩

/-- The subdivide relocation loop conserves the combined multiset of
    the polygon list and the unresolved lists of the children. -/
theorem relocateGo_conserves :
    ∀ (fuel k : Nat) (st : List ViewPolygon × List ONode),
      ((relocateGo fuel k st).1 ++ allUnresolvedL (relocateGo fuel k st).2).Perm
        (st.1 ++ allUnresolvedL st.2) ∧
      allResolvedL (relocateGo fuel k st).2 = allResolvedL st.2 ∧
      (wfNdL st.2 → wfNdL (relocateGo fuel k st).2) := by
  intro fuel
  induction fuel with
  | zero =>
    intro k st
    exact ⟨List.Perm.refl _, rfl, fun h => h⟩
  | succ f ih =>
    intro k st
    simp only [relocateGo]
    by_cases hk : k < st.1.length
    · rw [dif_pos hk]
      rcases hpush : pushFirstContaining (st.1.get ⟨k, hk⟩) st.2 with _ | ch2
      · exact ih (k + 1) st
      · obtain ⟨hperm, hres, hwf⟩ :=
          pushFirstContaining_conserves (st.1.get ⟨k, hk⟩) st.2 ch2 hpush
        obtain ⟨ihp, ihr, ihw⟩ := ih (k + 1) (st.1.eraseIdx k, ch2)
        refine ⟨?_, ?_, ?_⟩
        · exact ihp.trans ((hperm.append_left _).trans
            (List.perm_middle.trans
              ((get_cons_eraseIdx_perm st.1 k hk).append_right _)))
        · dsimp only
          rw [ihr]
          exact hres
        · intro hw
          dsimp only
          exact ihw (hwf hw)
    · rw [dif_neg hk]
      exact ⟨List.Perm.refl _, rfl, fun h => h⟩

/-- If the recursive insertion conserves polygons, so does the child
    loop. -/
theorem updateFirstContaining_conserves (p : ViewPolygon) (g : ONode → Option ONode)
    (hg : ∀ c c', wfNd c → g c = some c' →
      wfNd c' ∧ (allUnresolved c').Perm (p :: allUnresolved c) ∧
      allResolved c' = allResolved c) :
    ∀ (l : List ONode) (ch2 : List ONode), wfNdL l →
      updateFirstContaining p g l = some (some ch2) →
      wfNdL ch2 ∧ (allUnresolvedL ch2).Perm (p :: allUnresolvedL l) ∧
      allResolvedL ch2 = allResolvedL l := by
  intro l
  induction l with
  | nil =>
    intro ch2 hw h
    cases h
  | cons c rest ih =>
    intro ch2 hw h
    rw [show wfNdL (c :: rest) = (wfNd c ∧ wfNdL rest) from rfl] at hw
    simp only [updateFirstContaining] at h
    by_cases hc : contains_polygon c p = true
    · rw [if_pos hc] at h
      rcases hgc : g c with _ | c2
      · rw [hgc] at h
        cases h
      · rw [hgc] at h
        have h2 : c2 :: rest = ch2 := by
          have h3 := Option.some_inj.mp h
          exact Option.some_inj.mp h3
        rw [← h2]
        obtain ⟨hcw, hcp, hcr⟩ := hg c c2 hw.1 hgc
        refine ⟨?_, ?_, ?_⟩
        · rw [show wfNdL (c2 :: rest) = (wfNd c2 ∧ wfNdL rest) from rfl]
          exact ⟨hcw, hw.2⟩
        · simp only [allUnresolvedL]
          exact (hcp.append_right (allUnresolvedL rest)).trans (List.Perm.refl _)
        · simp only [allResolvedL, hcr]
    · rw [if_neg hc] at h
      rcases hrec : updateFirstContaining p g rest with _ | orest
      · rw [hrec] at h
        cases h
      · rw [hrec] at h
        rcases orest with _ | rest2
        · cases h
        · have h2 : c :: rest2 = ch2 := by
            have h3 := Option.some_inj.mp h
            exact Option.some_inj.mp h3
          rw [← h2]
          obtain ⟨hrw, hrp, hrr⟩ := ih rest2 hw.2 hrec
          refine ⟨?_, ?_, ?_⟩
          · rw [show wfNdL (c :: rest2) = (wfNd c ∧ wfNdL rest2) from rfl]
            exact ⟨hw.1, hrw⟩
          · simp only [allUnresolvedL]
            exact (hrp.append_left _).trans List.perm_middle
          · simp only [allResolvedL, hrr]

/-- `add_polygon` adds exactly the inserted polygon to the unresolved multiset of the tree, leaves every resolved list unchanged and
    preserves well-formedness. -/
theorem addPolygonFuel_conserves :
    ∀ (fuel : Nat) (p : ViewPolygon) (t t' : ONode), wfNd t →
      addPolygonFuel fuel p t = some t' →
      wfNd t' ∧ (allUnresolved t').Perm (p :: allUnresolved t) ∧
      allResolved t' = allResolved t := by
  intro fuel
  induction fuel with
  | zero =>
    intro p t t' hw h
    simp [addPolygonFuel] at h
  | succ f ih =>
    intro p t t' hw h
    cases t with
    | mk b d ch unres res nd =>
      rw [show wfNd (.mk b d ch unres res nd) =
        ((nd = true → ch = []) ∧ wfNdL ch) from rfl] at hw
      simp only [addPolygonFuel] at h
      by_cases hnd : nd = true
      · rw [if_pos hnd] at h
        by_cases hemp : unres.isEmpty = true
        · rw [if_pos hemp] at h
          rw [← Option.some_inj.mp h]
          refine ⟨⟨fun _ => hw.1 hnd, hw.2⟩, ?_, rfl⟩
          simp only [allUnresolved]
          exact snoc_append_perm unres (allUnresolvedL ch) p
        · rw [if_neg hemp] at h
          have hch : ch = [] := hw.1 hnd
          subst hch
          generalize hst :
            relocateGo unres.length 0 (unres, subdivideChildren b d) = st at h
          have hrel := relocateGo_conserves unres.length 0 (unres, subdivideChildren b d)
          rw [hst] at hrel
          dsimp only at hrel
          rw [allUnresolvedL_subdivideChildren, allResolvedL_subdivideChildren,
            List.append_nil] at hrel
          obtain ⟨hrp, hrr, hrw⟩ := hrel
          have hwfst : wfNdL st.2 := hrw (wfNdL_subdivideChildren b d)
          rcases hupd : updateFirstContaining p (addPolygonFuel f p) st.2 with _ | och
          · rw [hupd] at h
            cases h
          · rw [hupd] at h
            rcases och with _ | ch2
            · rw [← Option.some_inj.mp h]
              refine ⟨⟨(fun hcon => nomatch hcon), hwfst⟩, ?_, ?_⟩
              · simp only [allUnresolved, allUnresolvedL, List.append_nil]
                exact (snoc_append_perm st.1 (allUnresolvedL st.2) p).trans (hrp.cons p)
              · simp only [allResolved, allResolvedL, List.append_nil, hrr]
            · have hcons := updateFirstContaining_conserves p (addPolygonFuel f p)
                (fun c c2 hc hgc => ih p c c2 hc hgc) st.2 ch2 hwfst hupd
              rw [← Option.some_inj.mp h]
              refine ⟨⟨(fun hcon => nomatch hcon), hcons.1⟩, ?_, ?_⟩
              · simp only [allUnresolved, allUnresolvedL, List.append_nil]
                exact ((hcons.2.1.append_left st.1).trans List.perm_middle).trans
                  (hrp.cons p)
              · simp only [allResolved, allResolvedL, List.append_nil, hcons.2.2, hrr]
      · rw [if_neg hnd] at h
        rcases hupd : updateFirstContaining p (addPolygonFuel f p) ch with _ | och
        · rw [hupd] at h
          cases h
        · rw [hupd] at h
          rcases och with _ | ch2
          · rw [← Option.some_inj.mp h]
            refine ⟨⟨(fun hcon => nomatch hcon), hw.2⟩, ?_, rfl⟩
            simp only [allUnresolved]
            exact snoc_append_perm unres (allUnresolvedL ch) p
          · have hcons := updateFirstContaining_conserves p (addPolygonFuel f p)
              (fun c c2 hc hgc => ih p c c2 hc hgc) ch ch2 hw.2 hupd
            rw [← Option.some_inj.mp h]
            refine ⟨⟨(fun hcon => nomatch hcon), hcons.1⟩, ?_, ?_⟩
            · simp only [allUnresolved]
              exact (hcons.2.1.append_left unres).trans List.perm_middle
            · simp only [allResolved, hcons.2.2]

/-- The fresh root is well formed. -/
theorem wfNd_emptyRoot (b : BBox) : wfNd (emptyRoot b) := by
  rw [show wfNd (emptyRoot b) =
    ((true = true → ([] : List ONode) = []) ∧ wfNdL []) from rfl]
  refine ⟨fun _ => rfl, ?_⟩
  rw [show wfNdL ([] : List ONode) = True from rfl]
  trivial

/-- A failed insertion propagates through the remaining folds. -/
theorem foldl_bind_none (fuel : Nat) (l : List ViewPolygon) :
    l.foldl (fun acc p => acc.bind (addPolygonFuel fuel p)) none = none := by
  induction l with
  | nil => rfl
  | cons p rest ih =>
    simp only [List.foldl_cons, Option.none_bind]
    exact ih

/-- Building the octree from a polygon list puts exactly those
    polygons (as a multiset) in unresolved lists, with all resolved
    lists empty. -/
theorem insertAll_conserves :
    ∀ (polys : List ViewPolygon) (fuel : Nat) (root t : ONode), wfNd root →
      insertAll fuel polys root = some t →
      wfNd t ∧ (allUnresolved t).Perm (polys ++ allUnresolved root) ∧
      allResolved t = allResolved root := by
  intro polys
  induction polys with
  | nil =>
    intro fuel root t hw h
    have h2 : root = t := Option.some_inj.mp h
    subst h2
    exact ⟨hw, by simp, rfl⟩
  | cons p rest ih =>
    intro fuel root t hw h
    unfold insertAll at h
    simp only [List.foldl_cons, Option.some_bind] at h
    rcases hadd : addPolygonFuel fuel p root with _ | r1
    · rw [hadd] at h
      rw [foldl_bind_none] at h
      cases h
    · rw [hadd] at h
      have hr1 := addPolygonFuel_conserves fuel p root r1 hw hadd
      have hih := ih fuel r1 t hr1.1 h
      refine ⟨hih.1, ?_, ?_⟩
      · exact hih.2.1.trans ((hr1.2.1.append_left rest).trans List.perm_middle)
      · rw [hih.2.2, hr1.2.2]

/-- Claim C7: when the screen projections of no two polygons overlap — the
    abstracted shapely test `ov` returns false on every pair — the
    octree conflict resolver performs no cuts: resolution succeeds,
    the unresolved list of every node is empty afterwards, and the resolved
    lists hold exactly the inserted polygons, each with vertices,
    bounds and style unchanged (the very same `ViewPolygon` values). -/
theorem octree_resolve_no_overlap (ov : List (ℚ × ℚ) → List (ℚ × ℚ) → Bool)
    (hov : ∀ a b, ov a b = false)
    (root_bounds : BBox) (polys : List ViewPolygon)
    (insert_fuel resolve_fuel : Nat) (t : ONode)
    (hbuild : insertAll insert_fuel polys (emptyRoot root_bounds) = some t)
    (hfuel : maxU t ≤ resolve_fuel) :
    octreeResolveConflicts ov resolve_fuel t = some (clearTree t) ∧
    allUnresolved (clearTree t) = [] ∧
    (allResolved (clearTree t)).Perm polys := by
  have hcons := insertAll_conserves polys insert_fuel (emptyRoot root_bounds) t
    (wfNd_emptyRoot root_bounds) hbuild
  refine ⟨resolveTree_no_conflict ov hov resolve_fuel [] t hfuel,
    allUnresolved_clearTree t, ?_⟩
  have h2 : allResolved t = [] := by
    rw [hcons.2.2]
    simp [emptyRoot, allResolved, allResolvedL]
  have h3 : (allUnresolved t).Perm polys := by
    have h4 := hcons.2.1
    simpa [emptyRoot, allUnresolved, allUnresolvedL] using h4
  have h5 : (allResolved t ++ allUnresolved t).Perm polys := by
    rw [h2]
    simpa using h3
  exact (allResolved_clearTree t).trans h5

/-- Concrete build for the C7 witness: one unit square inserted into a
    fresh root lands in the unresolved list of the root. -/
theorem octree_witness_build :
    insertAll 1 [unitSquareAt 1] (emptyRoot ⟨0, 10, 0, 10, 0, 10⟩) =
      some (ONode.mk ⟨0, 10, 0, 10, 0, 10⟩ 0 [] [unitSquareAt 1] [] true) := rfl

/-- Witness for claim C7: at the concrete one-polygon tree the
    hypotheses are discharged and resolution moves the polygon to the
    resolved list. -/
theorem octree_resolve_no_overlap_witness :
    octreeResolveConflicts (fun _ _ => false) 1
        (ONode.mk ⟨0, 10, 0, 10, 0, 10⟩ 0 [] [unitSquareAt 1] [] true) =
      some (clearTree (ONode.mk ⟨0, 10, 0, 10, 0, 10⟩ 0 [] [unitSquareAt 1] [] true)) ∧
    (allResolved (clearTree
        (ONode.mk ⟨0, 10, 0, 10, 0, 10⟩ 0 [] [unitSquareAt 1] [] true))).Perm
      [unitSquareAt 1] := by
  have h := octree_resolve_no_overlap (fun _ _ => false) (fun a b => rfl)
    ⟨0, 10, 0, 10, 0, 10⟩ [unitSquareAt 1] 1 1
    (ONode.mk ⟨0, 10, 0, 10, 0, 10⟩ 0 [] [unitSquareAt 1] [] true)
    octree_witness_build
    (by rw [show maxU (ONode.mk ⟨0, 10, 0, 10, 0, 10⟩ 0 [] [unitSquareAt 1] [] true) =
      max [unitSquareAt 1].length (maxUL []) from rfl]
        simp [maxUL])
  exact ⟨h.1, h.2.2⟩
